import Mathlib

set_option maxRecDepth 8000

/-!
Verification of the royal-highway chapter-extraction core (src/rr.py) against
its specification. Python functions are shallowly embedded as executable Lean
definitions: strings become `List Char`, the BeautifulSoup fragment tree
becomes an inductive tree type, Python floats used only in comparisons become
`ℚ`, and fallible code returns `Except`/`Option`.
-/

namespace RR

/-! ## Chunking (chunk_chapters) -/

/-- Model of Python `range(0, stop, step)`: the indices `0, step, 2*step, ...`
strictly below `stop`.  (Python raises on `step = 0`; that case is mapped to
the empty list and never used, since `chunk_chapters` is called with a
positive size.) -/
def pyRangeStep (stop step : Nat) : List Nat :=
  if stop = 0 ∨ step = 0 then [] else
    0 :: (pyRangeStep (stop - step) step).map (· + step)
termination_by stop
decreasing_by omega

/-- Model of `chunk_chapters`: `[chapters[i : i + size] for i in range(0, len(chapters), size)]`.
The Python slice `l[i : i + size]` is `(l.drop i).take size`. -/
def chunkChapters (chapters : List α) (size : Nat) : List (List α) :=
  (pyRangeStep chapters.length size).map (fun i => (chapters.drop i).take size)

theorem pyRangeStep_zero (step : Nat) : pyRangeStep 0 step = [] := by
  rw [pyRangeStep]; simp

theorem chunkChapters_nil (n : Nat) : chunkChapters ([] : List α) n = [] := by
  simp [chunkChapters, pyRangeStep_zero]

theorem chunkChapters_cons (l : List α) (n : Nat) (hl : l ≠ []) (hn : 1 ≤ n) :
    chunkChapters l n = l.take n :: chunkChapters (l.drop n) n := by
  have hlen : l.length ≠ 0 := by simpa using hl
  unfold chunkChapters
  rw [List.length_drop]
  rw [pyRangeStep, if_neg (by omega)]
  simp only [List.map_cons, List.drop_zero, List.map_map]
  congr 1
  apply List.map_congr_left
  intro i _
  simp only [Function.comp_apply]
  rw [List.drop_drop, Nat.add_comm]

theorem chunkChapters_ne_nil (l : List α) (n : Nat) (hl : l ≠ []) (hn : 1 ≤ n) :
    chunkChapters l n ≠ [] := by
  rw [chunkChapters_cons l n hl hn]; simp

theorem chunkChapters_flatten (n : Nat) (hn : 1 ≤ n) :
    ∀ (k : Nat) (l : List α), l.length ≤ k → (chunkChapters l n).flatten = l := by
  intro k
  induction k with
  | zero =>
    intro l hk
    have : l = [] := List.eq_nil_of_length_eq_zero (by omega)
    subst this; simp [chunkChapters_nil]
  | succ m ih =>
    intro l hk
    rcases eq_or_ne l [] with rfl | hl
    · simp [chunkChapters_nil]
    · have hlen : l.length ≠ 0 := by simpa using hl
      rw [chunkChapters_cons l n hl hn, List.flatten_cons,
        ih (l.drop n) (by rw [List.length_drop]; omega), List.take_append_drop]

theorem chunkChapters_lengths (n : Nat) (hn : 1 ≤ n) :
    ∀ (k : Nat) (l : List α), l.length ≤ k →
      ∀ c ∈ (chunkChapters l n).dropLast, c.length = n := by
  intro k
  induction k with
  | zero =>
    intro l hk
    have : l = [] := List.eq_nil_of_length_eq_zero (by omega)
    subst this; simp [chunkChapters_nil]
  | succ m ih =>
    intro l hk
    rcases eq_or_ne l [] with rfl | hl
    · simp [chunkChapters_nil]
    · have hlen : l.length ≠ 0 := by simpa using hl
      rw [chunkChapters_cons l n hl hn]
      rcases eq_or_ne (l.drop n) [] with hdrop | hdrop
      · rw [hdrop, chunkChapters_nil n]
        intro c hc; simp at hc
      · rw [List.dropLast_cons_of_ne_nil (chunkChapters_ne_nil _ n hdrop hn)]
        intro c hc
        rcases List.mem_cons.mp hc with rfl | hc
        · have : l.length ≥ n := by
            by_contra hcon
            exact hdrop (List.drop_eq_nil_of_le (by omega))
          rw [List.length_take]; omega
        · exact ih (l.drop n) (by rw [List.length_drop]; omega) c hc

theorem chunkChapters_nonempty (n : Nat) (hn : 1 ≤ n) :
    ∀ (k : Nat) (l : List α), l.length ≤ k → ∀ c ∈ chunkChapters l n, c ≠ [] := by
  intro k
  induction k with
  | zero =>
    intro l hk
    have : l = [] := List.eq_nil_of_length_eq_zero (by omega)
    subst this; simp [chunkChapters_nil]
  | succ m ih =>
    intro l hk
    rcases eq_or_ne l [] with rfl | hl
    · simp [chunkChapters_nil]
    · have hlen : l.length ≠ 0 := by simpa using hl
      rw [chunkChapters_cons l n hl hn]
      intro c hc
      rcases List.mem_cons.mp hc with rfl | hc
      · simpa [List.take_eq_nil_iff] using And.intro (by omega : ¬n = 0) hl
      · exact ih (l.drop n) (by rw [List.length_drop]; omega) c hc

/-- C10: for every chapter list and positive chunk size `n`, `chunk_chapters`
partitions the list: the chunks concatenate back to the original list, every
chunk except possibly the last has exactly `n` elements, every chunk (in
particular the last) is non-empty, and the empty list yields zero chunks. -/
theorem chunk_chapters_partitions (l : List α) (n : Nat) (hn : 1 ≤ n) :
    (chunkChapters l n).flatten = l ∧
    (∀ c ∈ (chunkChapters l n).dropLast, c.length = n) ∧
    (∀ c ∈ chunkChapters l n, c ≠ []) ∧
    chunkChapters ([] : List α) n = [] :=
  ⟨chunkChapters_flatten n hn l.length l le_rfl,
   chunkChapters_lengths n hn l.length l le_rfl,
   chunkChapters_nonempty n hn l.length l le_rfl,
   chunkChapters_nil n⟩

/-- Witness for C10 at a concrete list and chunk size. -/
theorem chunk_chapters_partitions_witness :
    1 ≤ 2 ∧ (chunkChapters [10, 20, 30, 40, 50] 2).flatten = [10, 20, 30, 40, 50] :=
  ⟨by decide, (chunk_chapters_partitions [10, 20, 30, 40, 50] 2 (by decide)).1⟩

/-! ## Polite sleep interval (_polite_sleep) -/

/-- Clamped lower bound of `_polite_sleep`: `if min_delay < 0: min_delay = 0`. -/
def politeLo (minDelay : ℚ) : ℚ := if minDelay < 0 then 0 else minDelay

/-- Clamped upper bound of `_polite_sleep`:
`if max_delay < min_delay: max_delay = min_delay`, where `min_delay` has
already been clamped by the first test. -/
def politeHi (minDelay maxDelay : ℚ) : ℚ :=
  if maxDelay < politeLo minDelay then politeLo minDelay else maxDelay

/-- The pair of bounds `_polite_sleep` actually passes to `random.uniform`.
Python floats are modelled as rationals: only comparisons and the constant 0
are involved, so the model is exact for all non-NaN float inputs. -/
def politeInterval (minDelay maxDelay : ℚ) : ℚ × ℚ :=
  (politeLo minDelay, politeHi minDelay maxDelay)

theorem politeLo_eq (a : ℚ) : politeLo a = max 0 a := by
  unfold politeLo
  rcases lt_or_le a 0 with h | h
  · rw [if_pos h, max_eq_left h.le]
  · rw [if_neg (not_lt.mpr h), max_eq_right h]

theorem politeHi_eq (a b : ℚ) : politeHi a b = max (politeLo a) b := by
  unfold politeHi
  rcases lt_or_le b (politeLo a) with h | h
  · rw [if_pos h, max_eq_left h.le]
  · rw [if_neg (not_lt.mpr h), max_eq_right h]

/-- C9 counterexample: the claim says the sleep interval is
`[min(0, min_delay), max(min_delay, max_delay)]`; at `min_delay = 3`,
`max_delay = 4` the code's interval is `[3, 4]`, not `[min 0 3, max 3 4] = [0, 4]`. -/
theorem polite_interval_claim_false :
    politeInterval 3 4 = (3, 4) ∧ politeInterval 3 4 ≠ (min (0 : ℚ) 3, max (3 : ℚ) 4) := by
  constructor
  · decide
  · decide

/-- C9 (amended): before every request attempt the fetcher sleeps a uniformly
random duration drawn from `[max(0, min_delay), max(max(0, min_delay), max_delay)]`;
the clamps guarantee the lower bound is non-negative and the upper bound is at
least the lower bound, for every (non-NaN) floating-point input. -/
theorem polite_interval_clamped (a b : ℚ) :
    politeInterval a b = (max 0 a, max (max 0 a) b) ∧
    0 ≤ (politeInterval a b).1 ∧ (politeInterval a b).1 ≤ (politeInterval a b).2 := by
  refine ⟨?_, ?_, ?_⟩
  · unfold politeInterval
    rw [politeHi_eq, politeLo_eq]
  · simpa [politeInterval, politeLo_eq] using le_max_left (0 : ℚ) a
  · simpa [politeInterval, politeHi_eq] using le_max_left (politeLo a) b

/-! ## Polite fetcher retry loop (fetch_chapter_content) -/

/-- Outcome of the HTTP phase of `fetch_chapter_content`: the loop either
reaches a response whose status passes `raise_for_status` (success: the body is
then parsed), raises `HTTPError` for a 4xx/5xx status other than 429/503, or
exhausts all attempts on 429/503 and re-raises the recorded last error. -/
inductive FetchOutcome where
  | success (status : Nat)
  | httpErr (status : Nat)
  | exhausted (last : Option Nat)
deriving DecidableEq

/-- Statuses that consume a retry: `if r.status_code in (429, 503)`. -/
def isRetryStatus (s : Nat) : Bool := s == 429 || s == 503

/-- Model of the attempt loop of `fetch_chapter_content`.  `tr i` is the status
returned by the transport on the `i`-th request (0-based); the title/body
parsing performed after a successful status is outside this claim's scope.
Returns the outcome, the number of request attempts performed, and the list of
sleep intervals passed to `random.uniform` (a normal politeness sleep before
each attempt, plus a doubled-bound backoff sleep after each 429/503). -/
def fetchAux (tr : Nat → Nat) (mn mx : ℚ) :
    Nat → Nat → Option Nat → FetchOutcome × Nat × List (ℚ × ℚ)
  | 0, i, last => (.exhausted last, i, [])
  | n + 1, i, last =>
    if isRetryStatus (tr i) then
      ((fetchAux tr mn mx n (i + 1) (some (tr i))).1,
       (fetchAux tr mn mx n (i + 1) (some (tr i))).2.1,
       politeInterval mn mx :: politeInterval (mn * 2) (mx * 2) ::
         (fetchAux tr mn mx n (i + 1) (some (tr i))).2.2)
    else if 400 ≤ tr i ∧ tr i < 600 then (.httpErr (tr i), i + 1, [politeInterval mn mx])
    else (.success (tr i), i + 1, [politeInterval mn mx])

/-- `fetch_chapter_content` performs at most `retries + 1` attempts:
`for _attempt in range(retries + 1)`. -/
def fetchChapter (tr : Nat → Nat) (mn mx : ℚ) (retries : Nat) :
    FetchOutcome × Nat × List (ℚ × ℚ) :=
  fetchAux tr mn mx (retries + 1) 0 none

theorem fetchAux_success (tr : Nat → Nat) (mn mx : ℚ) :
    ∀ n i last, (∀ k, k < n → isRetryStatus (tr (i + k)) = true) →
      isRetryStatus (tr (i + n)) = false → ¬(400 ≤ tr (i + n) ∧ tr (i + n) < 600) →
      (fetchAux tr mn mx (n + 1) i last).1 = .success (tr (i + n)) ∧
      (fetchAux tr mn mx (n + 1) i last).2.1 = i + n + 1 := by
  intro n
  induction n with
  | zero =>
    intro i last _ hok herr
    rw [fetchAux]
    simp only [Nat.add_zero] at hok herr
    rw [if_neg (by simp [hok]), if_neg herr]
    exact ⟨rfl, rfl⟩
  | succ m ih =>
    intro i last hretry hok herr
    have h0 : isRetryStatus (tr i) = true := by
      have := hretry 0 (by omega); simpa using this
    rw [fetchAux, if_pos h0]
    have hsh : i + 1 + m = i + (m + 1) := by omega
    have := ih (i + 1) (some (tr i))
      (fun k hk => by
        have := hretry (k + 1) (by omega)
        have he : i + 1 + k = i + (k + 1) := by omega
        rw [he]; exact this)
      (by rw [hsh]; exact hok) (by rw [hsh]; exact herr)
    rw [hsh] at this
    exact ⟨this.1, by rw [this.2]⟩

theorem fetchAux_exhausted (tr : Nat → Nat) (mn mx : ℚ) :
    ∀ n i last, 1 ≤ n → (∀ k, k < n → isRetryStatus (tr (i + k)) = true) →
      (fetchAux tr mn mx n i last).1 = .exhausted (some (tr (i + n - 1))) ∧
      (fetchAux tr mn mx n i last).2.1 = i + n := by
  intro n
  induction n with
  | zero => intro i last h; omega
  | succ m ih =>
    intro i last _ hretry
    have h0 : isRetryStatus (tr i) = true := by
      have := hretry 0 (by omega); simpa using this
    rw [fetchAux, if_pos h0]
    rcases Nat.eq_zero_or_pos m with rfl | hm
    · rw [fetchAux]
      exact ⟨by simp, by simp⟩
    · have := ih (i + 1) (some (tr i)) hm
        (fun k hk => by
          have := hretry (k + 1) (by omega)
          have he : i + 1 + k = i + (k + 1) := by omega
          rw [he]; exact this)
      have he1 : i + 1 + m - 1 = i + (m + 1) - 1 := by omega
      have he2 : i + 1 + m = i + (m + 1) := by omega
      rw [he1, he2] at this
      exact ⟨this.1, this.2⟩

/-- C2: (1) if the transport returns 429/503 on the first `r` attempts and a
success status on attempt `r+1`, the fetch succeeds after exactly `r+1`
attempts; (2) if it returns 429/503 on every attempt, the fetch fails with
`RetriesExhausted` carrying the last observed status after exactly `r+1`
attempts; (3) any other non-success status fails immediately with `HttpError`
after exactly one attempt, with a single normal-bound politeness sleep and no
doubled-bound backoff sleep. -/
theorem fetch_chapter_retry_policy (tr : Nat → Nat) (mn mx : ℚ) (r : Nat) :
    ((∀ k, k < r → isRetryStatus (tr k) = true) → isRetryStatus (tr r) = false →
      ¬(400 ≤ tr r ∧ tr r < 600) →
      (fetchChapter tr mn mx r).1 = .success (tr r) ∧
      (fetchChapter tr mn mx r).2.1 = r + 1) ∧
    ((∀ k, k ≤ r → isRetryStatus (tr k) = true) →
      (fetchChapter tr mn mx r).1 = .exhausted (some (tr r)) ∧
      (fetchChapter tr mn mx r).2.1 = r + 1) ∧
    (isRetryStatus (tr 0) = false → 400 ≤ tr 0 → tr 0 < 600 →
      fetchChapter tr mn mx r = (.httpErr (tr 0), 1, [politeInterval mn mx])) := by
  refine ⟨?_, ?_, ?_⟩
  · intro h1 h2 h3
    have := fetchAux_success tr mn mx r 0 none
      (fun k hk => by simpa using h1 k hk) (by simpa using h2) (by simpa using h3)
    exact ⟨by simpa [fetchChapter] using this.1, by simpa [fetchChapter] using this.2⟩
  · intro h1
    have := fetchAux_exhausted tr mn mx (r + 1) 0 none (by omega)
      (fun k hk => by simpa using h1 k (by omega))
    refine ⟨?_, by simpa [fetchChapter] using this.2⟩
    have he : 0 + (r + 1) - 1 = r := by omega
    rw [he] at this
    exact this.1
  · intro h1 h2 h3
    rw [fetchChapter, fetchAux, if_neg (by simp [h1]), if_pos ⟨h2, h3⟩]

/-- Witness for C2: a transport returning 429 twice then 200 succeeds on the
third attempt with `retries = 2`; an always-503 transport exhausts after three
attempts; a 404 fails immediately after one attempt with one normal sleep. -/
theorem fetch_chapter_retry_policy_witness :
    ((∀ k, k < 2 → isRetryStatus ((fun i => if i < 2 then 429 else 200) k) = true) ∧
      (fetchChapter (fun i => if i < 2 then 429 else 200) 2 4 2).1 = .success 200 ∧
      (fetchChapter (fun i => if i < 2 then 429 else 200) 2 4 2).2.1 = 3) ∧
    ((fetchChapter (fun _ => 503) 2 4 2).1 = .exhausted (some 503) ∧
      (fetchChapter (fun _ => 503) 2 4 2).2.1 = 3) ∧
    fetchChapter (fun _ => 404) 2 4 2 = (.httpErr 404, 1, [politeInterval 2 4]) := by
  refine ⟨⟨by decide, ?_⟩, ?_, ?_⟩
  · exact (fetch_chapter_retry_policy (fun i => if i < 2 then 429 else 200) 2 4 2).1
      (by decide) (by decide) (by decide)
  · exact (fetch_chapter_retry_policy (fun _ => 503) 2 4 2).2.1 (by decide)
  · exact (fetch_chapter_retry_policy (fun _ => 404) 2 4 2).2.2 (by decide)
      (by decide) (by decide)

/-! ## Generic list helpers used by the string-processing models -/

theorem takeWhile_append_all {p : Char → Bool} :
    ∀ (a b : List Char), (∀ c ∈ a, p c = true) →
      (a ++ b).takeWhile p = a ++ b.takeWhile p := by
  intro a
  induction a with
  | nil => intro b _; simp
  | cons x xs ih =>
    intro b h
    have hx : p x = true := h x (by simp)
    simp only [List.cons_append, List.takeWhile_cons, hx, if_true]
    rw [ih b (fun c hc => h c (by simp [hc]))]

theorem dropWhile_append_all {p : Char → Bool} :
    ∀ (a b : List Char), (∀ c ∈ a, p c = true) →
      (a ++ b).dropWhile p = b.dropWhile p := by
  intro a
  induction a with
  | nil => intro b _; simp
  | cons x xs ih =>
    intro b h
    have hx : p x = true := h x (by simp)
    simp only [List.cons_append, List.dropWhile_cons, hx, if_true]
    exact ih b (fun c hc => h c (by simp [hc]))

theorem dropWhile_shape {p : Char → Bool} :
    ∀ (l : List Char), ∃ u, u ++ l.dropWhile p = l := by
  intro l
  induction l with
  | nil => exact ⟨[], rfl⟩
  | cons x xs ih =>
    by_cases hx : p x = true
    · obtain ⟨u, hu⟩ := ih
      exact ⟨x :: u, by simp [List.dropWhile_cons, hx, hu]⟩
    · exact ⟨[], by simp [List.dropWhile_cons, hx]⟩

/-! ## Slug parser (parse_fiction_slug) -/

/-- Model of Python `str.split(sep)` for a one-character separator: splitting
the empty string yields `[[]]`, matching Python's `"".split("/") == [""]`. -/
def splitOnChar (c : Char) : List Char → List (List Char)
  | [] => [[]]
  | x :: xs =>
    if x = c then [] :: splitOnChar c xs
    else
      match splitOnChar c xs with
      | [] => [[x]]
      | h :: t => (x :: h) :: t

/-- Remove all trailing `/` characters. -/
def stripTrailing (l : List Char) : List Char := (l.reverse.dropWhile (· = '/')).reverse

/-- Model of Python `str.strip("/")`: remove all leading and trailing `/`. -/
def stripSlashes (l : List Char) : List Char := stripTrailing (l.dropWhile (· = '/'))

/-- Characters at which the authority (netloc) component ends. -/
def netlocEnd (c : Char) : Bool := c = '/' || c = '?' || c = '#'

/-- Characters at which the path component ends (start of query or fragment). -/
def pathEnd (c : Char) : Bool := c = '?' || c = '#'

/-- Valid scheme: a letter followed by letters, digits, `+`, `-`, `.`. -/
def isSchemeChars : List Char → Bool
  | [] => false
  | c :: cs => c.isAlpha && cs.all (fun d => d.isAlphanum || d = '+' || d = '-' || d = '.')

/-- Netloc/path extraction once any `scheme:` has been removed: the netloc is
present exactly when the remainder starts with `//` and extends to the next
`/`, `?` or `#`; the path extends to the next `?` or `#`. -/
def urlSplitRest (rest : List Char) : List Char × List Char :=
  if rest.take 2 = ['/', '/'] then
    ((rest.drop 2).takeWhile (fun c => !netlocEnd c),
     ((rest.drop 2).dropWhile (fun c => !netlocEnd c)).takeWhile (fun c => !pathEnd c))
  else ([], rest.takeWhile (fun c => !pathEnd c))

/-- The schemes for which `urlparse` performs the params split
(`urllib.parse.uses_params`); the empty scheme is among them. -/
def usesParams : List (List Char) :=
  (["", "ftp", "hdl", "prospero", "http", "imap", "https", "shttp", "rtsp",
    "rtspu", "sip", "sips", "mms", "sftp", "tel"] : List String).map String.toList

/-- `urllib.parse._splitparams` on a path: when the path contains `/`, look
for `;` from the last `/` on (i.e. in the last segment) and cut there;
otherwise cut at the first `;`.  Returns `(path, params)`. -/
def splitParams (path : List Char) : List Char × List Char :=
  if '/' ∈ path then
    if ';' ∈ ((path.reverse.takeWhile (· ≠ '/')).reverse : List Char) then
      ((path.reverse.dropWhile (· ≠ '/')).reverse ++
        ((path.reverse.takeWhile (· ≠ '/')).reverse : List Char).takeWhile (· ≠ ';'),
       (((path.reverse.takeWhile (· ≠ '/')).reverse : List Char).dropWhile (· ≠ ';')).tail)
    else (path, [])
  else (path.takeWhile (· ≠ ';'), (path.dropWhile (· ≠ ';')).tail)

/-- The params step of `urlparse` on the `(netloc, path)` pair of `urlsplit`:
when the scheme uses params and the path contains `;`, the path is cut at the
params (the parser under verification reads only the path). -/
def paramCut (scheme : List Char) (np : List Char × List Char) : List Char × List Char :=
  if scheme ∈ usesParams ∧ ';' ∈ np.2 then (np.1, (splitParams np.2).1) else np

/-- Model of `urllib.parse.urlparse` restricted to what `parse_fiction_slug`
reads: the `(netloc, path)` pair of a hierarchical URL.  If the string begins
with a valid `scheme:` the scheme is removed first (and lower-cased for the
params check); the params split then truncates the path at a `;` in its last
segment.  (Query/fragment splitting details beyond this are not needed by
the parser under verification.) -/
def urlSplit (s : List Char) : List Char × List Char :=
  if (s.takeWhile (· ≠ ':')).length < s.length ∧ isSchemeChars (s.takeWhile (· ≠ ':')) then
    paramCut ((s.takeWhile (· ≠ ':')).map Char.toLower)
      (urlSplitRest ((s.dropWhile (· ≠ ':')).tail))
  else paramCut [] (urlSplitRest s)

inductive SlugErr where
  | invalidUrl | invalidFormat | invalidId
deriving DecidableEq

/-- ASCII decimal digit test. -/
def pyDigit (c : Char) : Bool := decide (c ∈ "0123456789".toList)

/-- Model of Python `str.isdigit` restricted to ASCII decimal digits (Python
also accepts some non-ASCII digit characters; those are outside the modelled
input alphabet). `"".isdigit()` is false. -/
def pyIsDigitStr (l : List Char) : Bool := !l.isEmpty && l.all pyDigit

theorem pyDigit_safe (c : Char) (h : pyDigit c = true) :
    c ≠ '/' ∧ pathEnd c = false ∧ netlocEnd c = false ∧ c ≠ ';' := by
  have hm : c ∈ "0123456789".toList := of_decide_eq_true h
  fin_cases hm <;> decide

/-- Model of `parse_fiction_slug`: reject if the URL has no netloc; strip `/`
from both ends of the path and split on `/` (interior empty segments are
kept, exactly as `str.split` does); require at least three parts with the
first equal to `fiction`; require the second to be all digits; return
`"<id>/<slug>"`. -/
def parseFictionSlug (s : List Char) : Except SlugErr (List Char) :=
  if (urlSplit s).1 = [] then .error .invalidUrl
  else
    let parts := splitOnChar '/' (stripSlashes (urlSplit s).2)
    if parts.length < 3 ∨ parts.headD [] ≠ "fiction".toList then .error .invalidFormat
    else if pyIsDigitStr (parts.getD 1 []) = false then .error .invalidId
    else .ok (parts.getD 1 [] ++ '/' :: parts.getD 2 [])

theorem splitOnChar_ne_nil (c : Char) : ∀ (l : List Char), splitOnChar c l ≠ [] := by
  intro l
  induction l with
  | nil => simp [splitOnChar]
  | cons x xs ih =>
    rw [splitOnChar]
    by_cases hx : x = c
    · simp [hx]
    · rw [if_neg hx]
      rcases hsp : splitOnChar c xs with _ | ⟨h, t⟩
      · simp
      · simp

theorem splitOnChar_no_sep (c : Char) :
    ∀ (l : List Char), (∀ x ∈ l, x ≠ c) → splitOnChar c l = [l] := by
  intro l
  induction l with
  | nil => intro _; rfl
  | cons x xs ih =>
    intro h
    rw [splitOnChar, if_neg (h x (by simp)), ih (fun y hy => h y (by simp [hy]))]

theorem splitOnChar_append (c : Char) :
    ∀ (a b : List Char), (∀ x ∈ a, x ≠ c) →
      splitOnChar c (a ++ c :: b) = a :: splitOnChar c b := by
  intro a
  induction a with
  | nil => intro b _; simp [splitOnChar]
  | cons x xs ih =>
    intro b h
    rw [List.cons_append, splitOnChar, if_neg (h x (by simp)),
      ih b (fun y hy => h y (by simp [hy]))]

theorem dropWhile_append_split {p : Char → Bool} (a b : List Char) :
    (a ++ b).dropWhile p =
      if a.dropWhile p = [] then b.dropWhile p else a.dropWhile p ++ b := by
  induction a with
  | nil => simp
  | cons x xs ih =>
    by_cases hx : p x = true
    · simpa [List.dropWhile_cons, hx] using ih
    · simp [List.dropWhile_cons, hx]

theorem stripTrailing_noop (l : List Char) (h : l.reverse.headD 'x' ≠ '/') :
    stripTrailing l = l := by
  unfold stripTrailing
  rcases hrev : l.reverse with _ | ⟨y, ys⟩
  · simpa using congrArg List.reverse hrev
  · rw [hrev] at h
    simp only [List.headD_cons] at h
    rw [List.dropWhile_cons, if_neg (by simpa using h), ← hrev, List.reverse_reverse]

theorem stripTrailing_core (core ex : List Char)
    (hcore : core.reverse.headD 'x' ≠ '/')
    (hex : ex = [] ∨ ∃ t, ex = '/' :: t) :
    ∃ r, stripTrailing (core ++ ex) = core ++ r ∧ (r = [] ∨ ∃ q, r = '/' :: q) := by
  rcases hex with rfl | ⟨t, rfl⟩
  · exact ⟨[], by rw [List.append_nil, stripTrailing_noop core hcore], Or.inl rfl⟩
  · unfold stripTrailing
    rw [List.reverse_append]
    rcases hd1 : ('/' :: t).reverse.dropWhile (· = '/') with _ | ⟨y, ys⟩
    · refine ⟨[], ?_, Or.inl rfl⟩
      rw [dropWhile_append_split, if_pos hd1, List.append_nil]
      have h0 := stripTrailing_noop core hcore
      unfold stripTrailing at h0
      exact h0
    · refine ⟨(y :: ys).reverse, ?_, Or.inr ?_⟩
      · rw [dropWhile_append_split, if_neg (by rw [hd1]; simp), hd1,
          List.reverse_append, List.reverse_reverse]
      · -- The suffix kept from `('/' :: t).reverse` ends with the '/' that began `ex`,
        -- so its reverse starts with '/'.
        obtain ⟨u, hu⟩ := dropWhile_shape (p := fun c => decide (c = '/')) (('/' :: t).reverse)
        rw [hd1] at hu
        have hrev2 : (y :: ys).reverse ++ u.reverse = '/' :: t := by
          have h2 := congrArg List.reverse hu
          rw [List.reverse_append, List.reverse_reverse] at h2
          exact h2
        rcases hyr : (y :: ys).reverse with _ | ⟨z, zs⟩
        · exact absurd hyr (by simp)
        · rw [hyr] at hrev2
          have hz : z = '/' := by
            have h3 := congrArg (List.headD · 'x') hrev2
            simpa using h3
          exact ⟨zs, by rw [hz]⟩

theorem urlSplit_https (host rest : List Char)
    (hhost : ∀ c ∈ host, netlocEnd c = false)
    (hsemi : ';' ∉ rest.takeWhile (fun c => !pathEnd c)) :
    urlSplit ("https://".toList ++ host ++ '/' :: rest) =
      (host, '/' :: rest.takeWhile (fun c => !pathEnd c)) := by
  have hs : ("https://".toList ++ host ++ '/' :: rest)
      = "https".toList ++ ':' :: '/' :: '/' :: (host ++ '/' :: rest) := by
    simp [List.append_assoc]
  rw [urlSplit, hs]
  have hpre : ("https".toList ++ ':' :: '/' :: '/' :: (host ++ '/' :: rest)).takeWhile
      (fun c => decide (c ≠ ':')) = "https".toList := by
    rw [takeWhile_append_all _ _ (by decide)]
    simp [List.takeWhile_cons]
  have hdw : ("https".toList ++ ':' :: '/' :: '/' :: (host ++ '/' :: rest)).dropWhile
      (fun c => decide (c ≠ ':')) = ':' :: '/' :: '/' :: (host ++ '/' :: rest) := by
    rw [dropWhile_append_all _ _ (by decide)]
    simp [List.dropWhile_cons]
  have hrest : urlSplitRest ('/' :: '/' :: (host ++ '/' :: rest))
      = (host, '/' :: rest.takeWhile (fun c => !pathEnd c)) := by
    rw [urlSplitRest, if_pos (by simp)]
    simp only [List.drop_succ_cons, List.drop_zero]
    rw [takeWhile_append_all host _ (fun c hc => by simp [hhost c hc])]
    rw [dropWhile_append_all host _ (fun c hc => by simp [hhost c hc])]
    have h1 : ('/' :: rest).takeWhile (fun c => !netlocEnd c) = [] := by
      simp [List.takeWhile_cons, netlocEnd]
    have h2 : ('/' :: rest).dropWhile (fun c => !netlocEnd c) = '/' :: rest := by
      simp [List.dropWhile_cons, netlocEnd]
    rw [h1, h2, List.append_nil]
    have h3 : ('/' :: rest).takeWhile (fun c => !pathEnd c)
        = '/' :: rest.takeWhile (fun c => !pathEnd c) := by
      simp [List.takeWhile_cons, pathEnd]
    rw [h3]
  rw [if_pos]
  · rw [hdw]
    simp only [List.tail_cons]
    rw [hrest, paramCut, if_neg]
    rintro ⟨-, hm⟩
    rcases List.mem_cons.mp hm with h | h
    · exact absurd h (by decide)
    · exact hsemi h
  · constructor
    · rw [hpre]
      simp only [List.length_append, List.length_cons]
      have : ("https".toList).length = 5 := by decide
      omega
    · rw [hpre]; decide

/-- C6 counterexample: the claim describes the segmentation as "splitting the
path on `/` and discarding empty segments"; the code keeps interior empty
segments.  On `https://www.royalroad.com/fiction//41656/slug` the non-empty
segments are `["fiction", "41656", "slug"]` (at least three, first `fiction`,
second all digits), so the claim predicts success `"41656/slug"`, but the code
takes `parts[1] = ""`, which fails the digit test, and raises `InvalidId`. -/
theorem parse_fiction_slug_claim_false :
    parseFictionSlug "https://www.royalroad.com/fiction//41656/slug".toList
      = .error .invalidId ∧
    ((splitOnChar '/'
        (stripSlashes (urlSplit "https://www.royalroad.com/fiction//41656/slug".toList).2)).filter
      (· ≠ [])) = ["fiction".toList, "41656".toList, "slug".toList] ∧
    pyIsDigitStr "41656".toList = true := by
  refine ⟨rfl, by decide, by decide⟩

theorem parseFictionSlug_of_parts (s host digits slug r : List Char)
    (hh : host ≠ [])
    (hurl : urlSplit s = (host, '/' :: ("fiction/".toList ++ (digits ++ '/' :: (slug ++ r)))))
    (hr : r = [] ∨ ∃ q, r = '/' :: q)
    (hd : digits ≠ []) (hdig : ∀ c ∈ digits, pyDigit c = true)
    (hsl : slug ≠ []) (hslug : ∀ c ∈ slug, c ≠ '/' ∧ pathEnd c = false) :
    parseFictionSlug s = .ok (digits ++ '/' :: slug) := by
  -- The stripped path is `core ++ r` with `core = fiction/<digits>/<slug>`.
  have hstrip : stripSlashes (urlSplit s).2
      = ("fiction/".toList ++ (digits ++ ('/' :: slug))) ++ ([] : List Char) ∨
      ∃ q, stripSlashes (urlSplit s).2
      = ("fiction/".toList ++ (digits ++ ('/' :: slug))) ++ '/' :: q := by
    rw [hurl]
    unfold stripSlashes
    have h1 : (('/' :: ("fiction/".toList ++ (digits ++ '/' :: (slug ++ r)))).dropWhile
        (· = '/')) = ("fiction/".toList ++ (digits ++ ('/' :: slug))) ++ r := by
      have hfe : ("fiction/".toList ++ (digits ++ '/' :: (slug ++ r)) : List Char)
          = 'f' :: ("iction/".toList ++ (digits ++ '/' :: (slug ++ r))) := rfl
      rw [List.dropWhile_cons, if_pos (by decide), hfe, List.dropWhile_cons,
        if_neg (by decide)]
      rw [← hfe]
      simp [List.append_assoc]
    rw [h1]
    have hcore : (("fiction/".toList ++ (digits ++ ('/' :: slug))) : List Char).reverse.headD 'x'
        ≠ '/' := by
      rcases hsr : slug.reverse with _ | ⟨y, ys⟩
      · exact absurd (by simpa using congrArg List.reverse hsr) hsl
      · have hy : y ∈ slug := by
          have : y ∈ slug.reverse := by rw [hsr]; simp
          simpa using this
        simp only [List.reverse_append, List.reverse_cons, hsr]
        simpa using (hslug y hy).1
    obtain ⟨r2, hr2, hshape⟩ :=
      stripTrailing_core ("fiction/".toList ++ (digits ++ ('/' :: slug))) r hcore hr
    rw [hr2]
    rcases hshape with rfl | ⟨q, rfl⟩
    · exact Or.inl rfl
    · exact Or.inr ⟨q, rfl⟩
  -- Split the stripped path.
  have hparts : ∃ rest, splitOnChar '/' (stripSlashes (urlSplit s).2)
      = "fiction".toList :: digits :: slug :: rest := by
    have hsplit : ∀ r2 : List Char, (r2 = [] ∨ ∃ q, r2 = '/' :: q) →
        ∃ rest, splitOnChar '/' (("fiction/".toList ++ (digits ++ ('/' :: slug))) ++ r2)
          = "fiction".toList :: digits :: slug :: rest := by
      intro r2 h2
      have hassoc : (("fiction/".toList ++ (digits ++ ('/' :: slug))) ++ r2 : List Char)
          = "fiction".toList ++ '/' :: (digits ++ '/' :: (slug ++ r2)) := by
        have : ("fiction/".toList : List Char) = "fiction".toList ++ ['/'] := by decide
        rw [this]
        simp [List.append_assoc]
      rw [hassoc]
      rw [splitOnChar_append '/' "fiction".toList _ (by decide)]
      rw [splitOnChar_append '/' digits _ (fun c hc => (pyDigit_safe c (hdig c hc)).1)]
      rcases h2 with rfl | ⟨q, rfl⟩
      · rw [List.append_nil, splitOnChar_no_sep '/' slug (fun c hc => (hslug c hc).1)]
        exact ⟨[], rfl⟩
      · rw [splitOnChar_append '/' slug q (fun c hc => (hslug c hc).1)]
        exact ⟨splitOnChar '/' q, rfl⟩
    rcases hstrip with h | ⟨q, h⟩
    · rw [h]; exact hsplit [] (Or.inl rfl)
    · rw [h]; exact hsplit ('/' :: q) (Or.inr ⟨q, rfl⟩)
  obtain ⟨rest, hps⟩ := hparts
  rw [parseFictionSlug]
  rw [if_neg (by rw [hurl]; exact hh)]
  simp only [hps]
  rw [if_neg (by
    intro hcon
    rcases hcon with hlen | hhead
    · simp at hlen; omega
    · exact hhead (by simp))]
  have hdigs : pyIsDigitStr digits = true := by
    unfold pyIsDigitStr
    rcases digits with _ | ⟨c, cs⟩
    · exact absurd rfl hd
    · simp only [List.isEmpty_cons, Bool.not_false, Bool.true_and]
      rw [List.all_eq_true]
      exact hdig
  rw [if_neg (by simp [hdigs])]
  simp [List.getD]

theorem mem_of_mem_takeWhile {p : Char → Bool} :
    ∀ (l : List Char) (c : Char), c ∈ l.takeWhile p → c ∈ l := by
  intro l
  induction l with
  | nil => intro c hc; simpa using hc
  | cons x xs ih =>
    intro c hc
    rw [List.takeWhile_cons] at hc
    by_cases hp : p x = true
    · rw [if_pos hp] at hc
      rcases List.mem_cons.mp hc with rfl | hc2
      · exact List.mem_cons_self _ _
      · exact List.mem_cons_of_mem _ (ih c hc2)
    · rw [if_neg hp] at hc
      exact absurd hc (List.not_mem_nil c)

/-- C6 (amended): for every well-formed `https://host/fiction/<digits>/<slug>`
URL (optionally with a further path/query/fragment suffix; the slug, and a
path suffix's last segment, free of `;`, which `urlparse` would treat as the
start of path parameters) the parser returns `"<digits>/<slug>"`; it fails
with `InvalidUrl` when the URL has no netloc; with `InvalidFormat` when,
after splitting the trimmed path on `/` (keeping interior empty segments, as
`str.split` does), there are fewer than three segments or the first is not
`fiction`; and with `InvalidId` when the second segment is not composed
entirely of decimal digits. -/
theorem parse_fiction_slug_spec :
    (∀ host digits slug extra : List Char,
      host ≠ [] → (∀ c ∈ host, netlocEnd c = false) →
      digits ≠ [] → (∀ c ∈ digits, pyDigit c = true) →
      slug ≠ [] → (∀ c ∈ slug, c ≠ '/' ∧ pathEnd c = false ∧ c ≠ ';') →
      (extra = [] ∨ (∃ t, extra = '/' :: t ∧ ∀ c ∈ t, c ≠ ';') ∨
        (∃ t, extra = '?' :: t) ∨ (∃ t, extra = '#' :: t)) →
      parseFictionSlug ("https://".toList ++ host ++ '/' ::
          ("fiction/".toList ++ (digits ++ '/' :: (slug ++ extra))))
        = .ok (digits ++ '/' :: slug)) ∧
    (∀ s, (urlSplit s).1 = [] → parseFictionSlug s = .error .invalidUrl) ∧
    (∀ s, (urlSplit s).1 ≠ [] →
      ((splitOnChar '/' (stripSlashes (urlSplit s).2)).length < 3 ∨
        (splitOnChar '/' (stripSlashes (urlSplit s).2)).headD [] ≠ "fiction".toList) →
      parseFictionSlug s = .error .invalidFormat) ∧
    (∀ s, (urlSplit s).1 ≠ [] →
      ¬((splitOnChar '/' (stripSlashes (urlSplit s).2)).length < 3 ∨
        (splitOnChar '/' (stripSlashes (urlSplit s).2)).headD [] ≠ "fiction".toList) →
      pyIsDigitStr ((splitOnChar '/' (stripSlashes (urlSplit s).2)).getD 1 []) = false →
      parseFictionSlug s = .error .invalidId) ∧
    (parseFictionSlug "https://host/fiction/41656/ab;cd".toList
      = .ok "41656/ab".toList) := by
  refine ⟨?_, ?_, ?_, ?_, rfl⟩
  · intro host digits slug extra hh hhost hd hdig hsl hslug hex
    have hslug2 : ∀ c ∈ slug, c ≠ '/' ∧ pathEnd c = false :=
      fun c hc => ⟨(hslug c hc).1, (hslug c hc).2.1⟩
    have hgood : ∀ c ∈ "fiction/".toList ++ (digits ++ '/' :: slug), (!pathEnd c) = true := by
      intro c hc
      simp only [List.mem_append, List.mem_cons] at hc
      rcases hc with hc | (hc | (hc | hc))
      · fin_cases hc <;> decide
      · simp [(pyDigit_safe c (hdig c hc)).2.1]
      · subst hc; decide
      · simp [(hslug c hc).2.1]
    have hnosemi : (';' : Char) ∉ ("fiction/".toList ++ (digits ++ '/' :: slug) : List Char) := by
      intro hm
      simp only [List.mem_append, List.mem_cons] at hm
      rcases hm with hm | (hm | (hm | hm))
      · exact absurd hm (by decide)
      · exact (pyDigit_safe ';' (hdig ';' hm)).2.2.2 rfl
      · exact absurd hm (by decide)
      · exact (hslug ';' hm).2.2 rfl
    -- Compute the path cut at ?/# for each shape of `extra`.
    have hre : ("fiction/".toList ++ (digits ++ '/' :: (slug ++ extra)) : List Char)
        = ("fiction/".toList ++ (digits ++ '/' :: slug)) ++ extra := by
      simp [List.append_assoc]
    rcases hex with rfl | (⟨t, rfl, hts⟩ | (⟨t, rfl⟩ | ⟨t, rfl⟩))
    · have hcut : (("fiction/".toList ++ (digits ++ '/' :: (slug ++ ([] : List Char))))).takeWhile
          (fun c => !pathEnd c) = "fiction/".toList ++ (digits ++ '/' :: (slug ++ [])) := by
        rw [List.takeWhile_eq_self_iff.mpr]
        intro c hc
        apply hgood
        simpa using hc
      refine parseFictionSlug_of_parts _ host digits slug [] hh ?_ (Or.inl rfl)
        hd hdig hsl hslug2
      rw [urlSplit_https host _ hhost
        (by rw [hcut]; intro hm; exact hnosemi (by simpa using hm)), hcut]
    · have hcut : (("fiction/".toList ++ (digits ++ '/' :: (slug ++ '/' :: t)))).takeWhile
          (fun c => !pathEnd c)
          = ("fiction/".toList ++ (digits ++ '/' :: slug)) ++
            '/' :: t.takeWhile (fun c => !pathEnd c) := by
        rw [hre, takeWhile_append_all _ _ hgood, List.takeWhile_cons]
        simp [pathEnd]
      refine parseFictionSlug_of_parts _ host digits slug
        ('/' :: t.takeWhile (fun c => !pathEnd c)) hh ?_ (Or.inr ⟨_, rfl⟩) hd hdig hsl hslug2
      rw [urlSplit_https host _ hhost (by
        rw [hcut]
        intro hm
        rcases List.mem_append.mp hm with hm1 | hm2
        · exact hnosemi hm1
        rcases List.mem_cons.mp hm2 with hm3 | hm4
        · exact absurd hm3 (by decide)
        · exact hts ';' (mem_of_mem_takeWhile t ';' hm4) rfl), hcut]
      simp [List.append_assoc]
    · have hcut : (("fiction/".toList ++ (digits ++ '/' :: (slug ++ '?' :: t)))).takeWhile
          (fun c => !pathEnd c)
          = ("fiction/".toList ++ (digits ++ '/' :: slug)) := by
        rw [hre, takeWhile_append_all _ _ hgood, List.takeWhile_cons]
        simp [pathEnd]
      refine parseFictionSlug_of_parts _ host digits slug [] hh ?_ (Or.inl rfl)
        hd hdig hsl hslug2
      rw [urlSplit_https host _ hhost (by rw [hcut]; exact hnosemi), hcut]
      simp [List.append_assoc]
    · have hcut : (("fiction/".toList ++ (digits ++ '/' :: (slug ++ '#' :: t)))).takeWhile
          (fun c => !pathEnd c)
          = ("fiction/".toList ++ (digits ++ '/' :: slug)) := by
        rw [hre, takeWhile_append_all _ _ hgood, List.takeWhile_cons]
        simp [pathEnd]
      refine parseFictionSlug_of_parts _ host digits slug [] hh ?_ (Or.inl rfl)
        hd hdig hsl hslug2
      rw [urlSplit_https host _ hhost (by rw [hcut]; exact hnosemi), hcut]
      simp [List.append_assoc]
  · intro s hns
    rw [parseFictionSlug, if_pos hns]
  · intro s hns hfmt
    rw [parseFictionSlug, if_neg hns]
    simp only [if_pos hfmt]
  · intro s hns hfmt hdig
    rw [parseFictionSlug, if_neg hns]
    simp only [if_neg hfmt]
    rw [if_pos hdig]

/-- Witness for C6 at a concrete well-formed URL and failure inputs. -/
theorem parse_fiction_slug_spec_witness :
    parseFictionSlug "https://www.royalroad.com/fiction/41656/chaotic-craftsman".toList
      = .ok "41656/chaotic-craftsman".toList ∧
    parseFictionSlug "not a url".toList = .error .invalidUrl := by
  constructor
  · have h := (parse_fiction_slug_spec).1 "www.royalroad.com".toList "41656".toList
      "chaotic-craftsman".toList [] (by decide) (by decide) (by decide) (by decide)
      (by decide) (by decide) (Or.inl rfl)
    have he : ("https://".toList ++ "www.royalroad.com".toList ++ '/' ::
        ("fiction/".toList ++ ("41656".toList ++ '/' :: ("chaotic-craftsman".toList ++ []))))
        = "https://www.royalroad.com/fiction/41656/chaotic-craftsman".toList := by decide
    have ho : ("41656".toList ++ '/' :: "chaotic-craftsman".toList)
        = "41656/chaotic-craftsman".toList := by decide
    rw [he, ho] at h
    exact h
  · exact (parse_fiction_slug_spec).2.1 "not a url".toList (by decide)

/-! ## Embedded-array extractor (_extract_js_array, extract_window_chapters) -/

/-- Does `l` start with `pat`? -/
def leadsWith : List Char → List Char → Bool
  | [], _ => true
  | _ :: _, [] => false
  | p :: ps, x :: xs => p == x && leadsWith ps xs

def findSubAux (pat : List Char) : List Char → Nat → Option Nat
  | [], i => if leadsWith pat [] then some i else none
  | x :: xs, i => if leadsWith pat (x :: xs) then some i else findSubAux pat xs (i + 1)

/-- Model of Python `text.find(pat)`: index of the first occurrence, `none`
standing for Python's `-1`. -/
def findSub (pat s : List Char) : Option Nat := findSubAux pat s 0

inductive ExtractErr where
  | variableNotFound | malformedArray | invalidArrayJson | notAList | missingId | pyTypeError
deriving DecidableEq

/-- The bracket-depth scan of `_extract_js_array`: walk the characters keeping
a depth counter, `+1` on `[`, `-1` on `]`; when a `]` brings the depth to zero
return the span scanned so far (the Python slice `text[bracket_start : i+1]`).
`acc` carries the scanned prefix in reverse. -/
def bracketScanAux : Int → List Char → List Char → Option (List Char)
  | _, _, [] => none
  | d, acc, c :: cs =>
    if c = ']' ∧ d - 1 = 0 then some (c :: acc).reverse
    else bracketScanAux (if c = '[' then d + 1 else if c = ']' then d - 1 else d)
      (c :: acc) cs

def bracketScan (l : List Char) : Option (List Char) := bracketScanAux 0 [] l

/-- Model of `_extract_js_array`: find the variable name, find the next `[`
after it, then bracket-match.  The Python index arithmetic `text.find("[", idx)`
/ `text[bracket_start : i+1]` is rendered with `drop`/`dropWhile` on the
suffix starting at the variable name.  The missing-`[` and unbalanced cases
both raise `ValueError`s that the spec classifies as `MalformedArray`. -/
def extractJsArray (text var : List Char) : Except ExtractErr (List Char) :=
  match findSub var text with
  | none => .error .variableNotFound
  | some i =>
    match (text.drop i).dropWhile (· ≠ '[') with
    | [] => .error .malformedArray
    | c :: rest =>
      match bracketScan (c :: rest) with
      | none => .error .malformedArray
      | some span => .ok span

/-- JSON values, as produced by `json.loads` on the inputs this program
handles (floating-point numbers and `\uXXXX` string escapes are outside the
modelled input alphabet; chapter arrays contain objects with integer ids and
string fields). -/
inductive JVal where
  | jnull
  | jbool (b : Bool)
  | jnum (n : Int)
  | jstr (s : List Char)
  | jarr (elems : List JVal)
  | jobj (fields : List (List Char × JVal))

def jsonWs (c : Char) : Bool := c = ' ' || c = '\t' || c = '\n' || c = '\r'

def skipWs (l : List Char) : List Char := l.dropWhile jsonWs

/-- Body of a JSON string after the opening quote; returns the decoded
characters and the remainder after the closing quote. -/
def parseStrBody : Nat → List Char → Option (List Char × List Char)
  | 0, _ => none
  | _ + 1, [] => none
  | fuel + 1, c :: cs =>
    if c = '"' then some ([], cs)
    else if c = '\\' then
      match cs with
      | [] => none
      | e :: es =>
        let dec : Option Char :=
          if e = '"' then some '"' else if e = '\\' then some '\\'
          else if e = '/' then some '/' else if e = 'n' then some '\n'
          else if e = 't' then some '\t' else if e = 'r' then some '\r'
          else if e = 'b' then some (Char.ofNat 8) else if e = 'f' then some (Char.ofNat 12)
          else none
        match dec with
        | none => none
        | some ch => (parseStrBody fuel es).map (fun p => (ch :: p.1, p.2))
    else (parseStrBody fuel cs).map (fun p => (c :: p.1, p.2))

def digitsToNat (l : List Char) : Nat := l.foldl (fun a c => a * 10 + (c.toNat - 48)) 0

def parseNum (l : List Char) : Option (Int × List Char) :=
  match l with
  | '-' :: rest =>
    if (rest.takeWhile pyDigit) = [] then none
    else some (-(digitsToNat (rest.takeWhile pyDigit) : Int), rest.dropWhile pyDigit)
  | _ =>
    if (l.takeWhile pyDigit) = [] then none
    else some ((digitsToNat (l.takeWhile pyDigit) : Int), l.dropWhile pyDigit)

mutual

/-- Recursive-descent JSON value parser (fuelled; `jsonParse` supplies ample
fuel, and every theorem evaluates it on concrete spans only). -/
def parseVal : Nat → List Char → Option (JVal × List Char)
  | 0, _ => none
  | fuel + 1, l =>
    match skipWs l with
    | [] => none
    | '[' :: cs =>
      match skipWs cs with
      | ']' :: rest => some (.jarr [], rest)
      | _ => (parseArrItems fuel cs).map (fun p => (JVal.jarr p.1, p.2))
    | '\x7b' :: cs =>
      match skipWs cs with
      | '\x7d' :: rest => some (.jobj [], rest)
      | _ => (parseObjItems fuel cs).map (fun p => (JVal.jobj p.1, p.2))
    | '"' :: cs => (parseStrBody (cs.length + 1) cs).map (fun p => (JVal.jstr p.1, p.2))
    | c :: cs =>
      if c = 'n' then
        if leadsWith "ull".toList cs then some (.jnull, cs.drop 3) else none
      else if c = 't' then
        if leadsWith "rue".toList cs then some (.jbool true, cs.drop 3) else none
      else if c = 'f' then
        if leadsWith "alse".toList cs then some (.jbool false, cs.drop 4) else none
      else
        match parseNum (c :: cs) with
        | some (n, rest) => some (.jnum n, rest)
        | none => none

/-- One-or-more comma-separated array items followed by `]`. -/
def parseArrItems : Nat → List Char → Option (List JVal × List Char)
  | 0, _ => none
  | fuel + 1, l =>
    match parseVal fuel l with
    | none => none
    | some (v, rest) =>
      match skipWs rest with
      | ',' :: r2 => (parseArrItems fuel r2).map (fun p => (v :: p.1, p.2))
      | ']' :: r2 => some ([v], r2)
      | _ => none

/-- One-or-more `"key": value` object members followed by `}`. -/
def parseObjItems : Nat → List Char → Option (List (List Char × JVal) × List Char)
  | 0, _ => none
  | fuel + 1, l =>
    match skipWs l with
    | '"' :: cs =>
      match parseStrBody (cs.length + 1) cs with
      | none => none
      | some (key, rest) =>
        match skipWs rest with
        | ':' :: r2 =>
          match parseVal fuel r2 with
          | none => none
          | some (v, r3) =>
            match skipWs r3 with
            | ',' :: r4 => (parseObjItems fuel r4).map (fun p => ((key, v) :: p.1, p.2))
            | '\x7d' :: r4 => some ([(key, v)], r4)
            | _ => none
        | _ => none
    | _ => none

end

/-- Model of `json.loads` on the JSON subset described at `JVal`:
parse one value and require only whitespace after it. -/
def jsonParse (l : List Char) : Option JVal :=
  match parseVal (2 * l.length + 2) l with
  | some (v, rest) => if skipWs rest = [] then some v else none
  | none => none

/-- Python's `"id" not in ch` for a chapter entry: membership test on dicts,
lists and strings; `none` models the `TypeError` raised for numbers, booleans
and `None`. -/
def hasIdKey : JVal → Option Bool
  | .jobj kvs => some (kvs.any (fun kv => kv.1 = "id".toList))
  | .jarr elems => some (elems.any (fun e =>
      match e with
      | .jstr s => s = "id".toList
      | _ => false))
  | .jstr s => some (findSub "id".toList s).isSome
  | _ => none

/-- Check every chapter entry for an `id`, in order, returning the first
failure (`MissingId`, or the un-modelled `TypeError` on non-container
entries). -/
def checkIds : List JVal → Option ExtractErr
  | [] => none
  | ch :: rest =>
    match hasIdKey ch with
    | none => some .pyTypeError
    | some true => checkIds rest
    | some false => some .missingId

/-- Model of `extract_window_chapters` on the string finally scanned: either
the contents of the `<script>` block BeautifulSoup selects (when one contains
the variable name — bs4's HTML parsing is an external collaborator) or, on
the fallback path, the whole document.  Either way the scanned string contains
`window.chapters` exactly when the document does. -/
def extractWindowChapters (target : List Char) : Except ExtractErr (List JVal) :=
  if (findSub "window.chapters".toList target).isNone then .error .variableNotFound
  else
    match extractJsArray target "window.chapters".toList with
    | .error e => .error e
    | .ok span =>
      match jsonParse span with
      | none => .error .invalidArrayJson
      | some (.jarr chapters) =>
        match checkIds chapters with
        | none => .ok chapters
        | some e => .error e
      | some _ => .error .notAList

/-- The variable name targeted by `extract_window_chapters`. -/
def wcVar : List Char := "window.chapters".toList

/-- The array literal of the claim's test document. -/
def wcArr : List Char := "[\x7b\"id\":1\x7d,\x7b\"id\":2\x7d]".toList

def wcArrTail : List Char := "\x7b\"id\":1\x7d,\x7b\"id\":2\x7d]".toList

/-- The claim's embedded text `window.chapters = [{"id":1},{"id":2}];`. -/
def wcCore : List Char := "window.chapters = ".toList ++ wcArr ++ [';']

/-- The two expected chapter summaries, with ids 1 and 2 in that order. -/
def wcTwoChapters : List JVal :=
  [.jobj [("id".toList, .jnum 1)], .jobj [("id".toList, .jnum 2)]]

theorem bracketScanAux_append (b : List Char) :
    ∀ (a : List Char) (d : Int) (acc res : List Char),
      bracketScanAux d acc a = some res → bracketScanAux d acc (a ++ b) = some res := by
  intro a
  induction a with
  | nil => intro d acc res h; exact absurd h (by simp [bracketScanAux])
  | cons c cs ih =>
    intro d acc res h
    rw [bracketScanAux] at h
    rw [List.cons_append, bracketScanAux]
    by_cases hc : c = ']' ∧ d - 1 = 0
    · rw [if_pos hc] at h; rw [if_pos hc]; exact h
    · rw [if_neg hc] at h; rw [if_neg hc]; exact ih _ _ _ h

/-- Bracket balance of a span: occurrences of `[` minus occurrences of `]`. -/
def brDepth (l : List Char) : Int := (l.count '[' : Int) - (l.count ']' : Int)

theorem brDepth_cons (c : Char) (l : List Char) :
    brDepth (c :: l) =
      (if c = '[' then 1 else if c = ']' then -1 else 0) + brDepth l := by
  unfold brDepth
  rcases eq_or_ne c '[' with rfl | h1
  · simp [List.count_cons]
    ring
  · rcases eq_or_ne c ']' with rfl | h2
    · simp [List.count_cons]
      ring
    · simp [List.count_cons, h1, h2]

theorem bracketScanAux_none :
    ∀ (l : List Char) (d : Int) (acc : List Char),
      (∀ k, 1 ≤ k → k ≤ l.length → d + brDepth (l.take k) ≠ 0) →
      bracketScanAux d acc l = none := by
  intro l
  induction l with
  | nil => intro d acc _; rfl
  | cons c cs ih =>
    intro d acc h
    rw [bracketScanAux]
    have hdelta : d + brDepth [c] =
        d + (if c = '[' then 1 else if c = ']' then -1 else 0) := by
      rw [show ([c] : List Char) = c :: [] from rfl, brDepth_cons]
      simp [brDepth]
    rw [if_neg ?hcond]
    · apply ih
      intro k hk1 hk2
      have := h (k + 1) (by omega) (by simp; omega)
      rw [List.take_succ_cons, brDepth_cons] at this
      intro hcon
      apply this
      rcases eq_or_ne c '[' with rfl | h1
      · simp at hcon ⊢; omega
      · rcases eq_or_ne c ']' with rfl | h2
        · simp at hcon ⊢; omega
        · simp [h1, h2] at hcon ⊢; omega
    · case hcond =>
      intro ⟨hc, hd⟩
      have h1 := h 1 (by omega) (by simp)
      rw [List.take_succ_cons, List.take_zero, hc] at h1
      apply h1
      rw [brDepth_cons]
      simp [brDepth]
      omega

theorem extractJsArray_ok (text var : List Char) (i : Nat) (c : Char)
    (rest span : List Char)
    (h1 : findSub var text = some i)
    (h2 : (text.drop i).dropWhile (· ≠ '[') = c :: rest)
    (h3 : bracketScan (c :: rest) = some span) :
    extractJsArray text var = .ok span := by
  simp only [extractJsArray, h1, h2, h3]

theorem extractWindowChapters_ok (target span : List Char) (chapters : List JVal)
    (i : Nat) (c : Char) (rest : List Char)
    (h1 : findSub "window.chapters".toList target = some i)
    (h2 : (target.drop i).dropWhile (· ≠ '[') = c :: rest)
    (h3 : bracketScan (c :: rest) = some span)
    (h4 : jsonParse span = some (.jarr chapters))
    (h5 : checkIds chapters = none) :
    extractWindowChapters target = .ok chapters := by
  unfold extractWindowChapters
  rw [h1]
  simp only [Option.isNone_some, Bool.false_eq_true, if_false]
  rw [extractJsArray_ok target _ i c rest span h1 h2 h3]
  simp only [h4, h5]

/-- C3 (amended): (1) for every document in which the FIRST occurrence of
`window.chapters` begins the text `window.chapters = [{"id":1},{"id":2}];`,
extraction returns exactly the two summaries with ids 1 and 2 in that order;
(2) the array's span is found by the bracket-depth scan, and whenever the
depth never returns to zero before the scanned text ends (and also when no
`[` follows the variable at all) extraction fails with `MalformedArray`;
(3) an array entry without an `id` field fails with `MissingId`. -/
theorem extract_window_chapters_spec :
    (∀ p s : List Char,
      findSub wcVar (p ++ (wcCore ++ s)) = some p.length →
      extractWindowChapters (p ++ (wcCore ++ s)) = .ok wcTwoChapters) ∧
    (∀ (text : List Char) (i : Nat), findSub wcVar text = some i →
      (∀ k, 1 ≤ k → k ≤ ((text.drop i).dropWhile (· ≠ '[')).length →
        brDepth (((text.drop i).dropWhile (· ≠ '[')).take k) ≠ 0) →
      extractWindowChapters text = .error .malformedArray) ∧
    extractWindowChapters "window.chapters = [\x7b\"id\":1\x7d,\x7b\x7d];".toList
      = .error .missingId := by
  refine ⟨?_, ?_, ?_⟩
  · intro p s h1
    have hdrop : ((p ++ (wcCore ++ s)).drop p.length) = wcCore ++ s := List.drop_left p _
    have hdw : (wcCore ++ s).dropWhile (· ≠ '[') = '[' :: (wcArrTail ++ (';' :: s)) := by
      have hassoc : wcCore ++ s
          = "window.chapters = ".toList ++ (wcArr ++ (';' :: s)) := by
        simp [wcCore, List.append_assoc]
      rw [hassoc, dropWhile_append_all _ _ (by decide)]
      have : (wcArr ++ (';' :: s) : List Char) = '[' :: (wcArrTail ++ (';' :: s)) := rfl
      rw [this, List.dropWhile_cons, if_neg (by decide)]
    refine extractWindowChapters_ok _ wcArr wcTwoChapters p.length '['
      (wcArrTail ++ (';' :: s)) h1 (by rw [hdrop]; exact hdw) ?_ (by rfl) (by rfl)
    have : ('[' :: (wcArrTail ++ (';' :: s)) : List Char) = wcArr ++ (';' :: s) := rfl
    rw [this]
    exact bracketScanAux_append (';' :: s) wcArr 0 [] wcArr (by rfl)
  · intro text i h1 hbal
    have h1x : findSub "window.chapters".toList text = some i := h1
    unfold extractWindowChapters
    rw [h1x]
    simp only [Option.isNone_some, Bool.false_eq_true, if_false]
    have harr : extractJsArray text "window.chapters".toList = .error .malformedArray := by
      unfold extractJsArray
      simp only [h1x]
      rcases hreg : (text.drop i).dropWhile (· ≠ '[') with _ | ⟨c, rest⟩
      · rfl
      · have hnone : bracketScan (c :: rest) = none := by
          unfold bracketScan
          apply bracketScanAux_none
          intro k hk1 hk2
          have := hbal k hk1 (by rw [hreg]; exact hk2)
          rw [hreg] at this
          simpa using this
        simp only [hnone]
    rw [harr]
  · rfl

/-- C3 counterexample: the claim quantifies over EVERY document containing
`window.chapters = [{"id":1},{"id":2}];` anywhere, but the extractor anchors
on the FIRST occurrence of `window.chapters`.  A document with an earlier
`window.chapters = [{"id":9}];` assignment contains the claim's text verbatim
yet yields the single summary with id 9, not the two summaries with ids 1, 2. -/
theorem extract_window_chapters_claim_false :
    extractWindowChapters ("window.chapters = [\x7b\"id\":9\x7d]; ".toList ++ wcCore ++ [])
      = .ok [JVal.jobj [("id".toList, JVal.jnum 9)]] ∧
    [JVal.jobj [("id".toList, JVal.jnum 9)]] ≠ wcTwoChapters := by
  constructor
  · rfl
  · intro h
    simp [wcTwoChapters] at h

/-- Witness for C3 at the trivial embedding (empty before/after context). -/
theorem extract_window_chapters_spec_witness :
    findSub wcVar ([] ++ (wcCore ++ [])) = some ([] : List Char).length ∧
    extractWindowChapters ([] ++ (wcCore ++ [])) = .ok wcTwoChapters :=
  ⟨by decide, (extract_window_chapters_spec).1 [] [] (by decide)⟩

/-! ## Markup normalizer, plain-text form (bracket_to_bold_html_from_text) -/

/-- `html.escape` (with its default `quote=True`) on one character. -/
def escPyChar (c : Char) : List Char :=
  if c = '&' then "&amp;".toList
  else if c = '<' then "&lt;".toList
  else if c = '>' then "&gt;".toList
  else if c = '"' then "&quot;".toList
  else if c = '\x27' then "&#x27;".toList
  else [c]

/-- Model of Python `html.escape` (default quoting). -/
def escPy : List Char → List Char
  | [] => []
  | c :: cs => escPyChar c ++ escPy cs

def digitChar (m : Nat) : Char := "0123456789".toList.getD m '0'

def decDigitsAux : Nat → Nat → List Char
  | 0, _ => []
  | fuel + 1, n => if n < 10 then [digitChar n] else decDigitsAux fuel (n / 10) ++ [digitChar (n % 10)]

/-- Decimal digits of `n`, as written by Python's f-string. -/
def decDigits (n : Nat) : List Char := decDigitsAux (n + 1) n

/-- The `@@BOLD{idx}@@` placeholder inserted by `mark`. -/
def placeholder (k : Nat) : List Char := "@@BOLD".toList ++ decDigits k ++ "@@".toList

/-- The stored replacement `<strong>{html.escape(content)}</strong>`. -/
def strongWrap (content : List Char) : List Char :=
  "<strong>".toList ++ content ++ "</strong>".toList

/-- `[^<op><cl>]`: a character allowed inside a bracket span's content. -/
def notBr (op cl : Char) (c : Char) : Bool := !(c = op || c = cl)

theorem dropWhile_length_le {α : Type _} {p : α → Bool} :
    ∀ (l : List α), (l.dropWhile p).length ≤ l.length := by
  intro l
  induction l with
  | nil => simp
  | cons x xs ih =>
    rw [List.dropWhile_cons]
    by_cases hx : p x = true
    · rw [if_pos hx]; simp; omega
    · rw [if_neg hx]

/-- One `re.sub` pass of `bracket_to_bold_html_from_text` for the style with
delimiters `op`/`cl`: scan left to right; at `op`, if one or more
non-delimiter characters follow and then `cl`, append
`<strong>{escaped content}</strong>` to the replacement list and emit the
`@@BOLD{idx}@@` placeholder; otherwise the character is just copied and the
scan moves one position. -/
def subPassF (op cl : Char) : Nat → List Char → List (List Char) → List Char × List (List Char)
  | 0, l, reps => (l, reps)
  | _ + 1, [], reps => ([], reps)
  | fuel + 1, c :: rest, reps =>
    if c = op then
      match rest.dropWhile (notBr op cl) with
      | d :: r3 =>
        if d = cl ∧ rest.takeWhile (notBr op cl) ≠ [] then
          (placeholder reps.length ++
            (subPassF op cl fuel r3
              (reps ++ [strongWrap (escPy (rest.takeWhile (notBr op cl)))])).1,
           (subPassF op cl fuel r3
              (reps ++ [strongWrap (escPy (rest.takeWhile (notBr op cl)))])).2)
        else
          (c :: (subPassF op cl fuel rest reps).1, (subPassF op cl fuel rest reps).2)
      | [] =>
        (c :: (subPassF op cl fuel rest reps).1, (subPassF op cl fuel rest reps).2)
    else
      (c :: (subPassF op cl fuel rest reps).1, (subPassF op cl fuel rest reps).2)

/-- One `re.sub` pass of `bracket_to_bold_html_from_text` for the style with
delimiters `op`/`cl`: scan left to right; at `op`, if one or more
non-delimiter characters follow and then `cl`, append
`<strong>{escaped content}</strong>` to the replacement list and emit the
`@@BOLD{idx}@@` placeholder; otherwise the character is just copied and the
scan moves one position.  (The fuel argument of `subPassF` only forces
structural termination; the scan consumes at least one character per step, so
`l.length` fuel is always enough.) -/
def subPass (op cl : Char) (l : List Char) (reps : List (List Char)) :
    List Char × List (List Char) :=
  subPassF op cl l.length l reps

theorem subPassF_fuel (op cl : Char) :
    ∀ (f1 : Nat), ∀ (f2 : Nat) (l : List Char) (reps : List (List Char)),
      l.length ≤ f1 → l.length ≤ f2 →
      subPassF op cl f1 l reps = subPassF op cl f2 l reps := by
  intro f1
  induction f1 with
  | zero =>
    intro f2 l reps h1 _
    have : l = [] := List.eq_nil_of_length_eq_zero (by omega)
    subst this
    cases f2 <;> rfl
  | succ f ih =>
    intro f2 l reps h1 h2
    rcases l with _ | ⟨c, rest⟩
    · cases f2 <;> rfl
    · rcases f2 with _ | f2x
      · simp at h2
      · show subPassF op cl (f + 1) (c :: rest) reps = subPassF op cl (f2x + 1) (c :: rest) reps
        rw [subPassF, subPassF]
        simp only [List.length_cons] at h1 h2
        by_cases hc : c = op
        · rw [if_pos hc, if_pos hc]
          rcases hdd : rest.dropWhile (notBr op cl) with _ | ⟨d, r3⟩
          · simp only [hdd]
            rw [ih f2x rest reps (by omega) (by omega)]
          · simp only [hdd]
            by_cases hcond : d = cl ∧ rest.takeWhile (notBr op cl) ≠ []
            · rw [if_pos hcond, if_pos hcond]
              have hr3 : r3.length < rest.length := by
                have := dropWhile_length_le (p := notBr op cl) rest
                rw [hdd] at this
                simp only [List.length_cons] at this
                omega
              rw [ih f2x r3 _ (by omega) (by omega)]
            · rw [if_neg hcond, if_neg hcond]
              rw [ih f2x rest reps (by omega) (by omega)]
        · rw [if_neg hc, if_neg hc]
          rw [ih f2x rest reps (by omega) (by omega)]

/-- The six literal bracket characters removed by the `str.translate` step. -/
def isBracketChar (c : Char) : Bool :=
  c = '<' || c = '>' || c = '[' || c = ']' || c = '\x7b' || c = '\x7d'

/-- The `str.translate` step: delete every remaining bracket character. -/
def stripBracketChars (l : List Char) : List Char := l.filter (fun c => !isBracketChar c)

def strReplaceF : Nat → List Char → List Char → List Char → List Char
  | 0, s, _, _ => s
  | _ + 1, [], _, _ => []
  | fuel + 1, c :: cs, pat, rep =>
    if pat.isEmpty then c :: cs
    else if leadsWith pat (c :: cs) then
      rep ++ strReplaceF fuel ((c :: cs).drop pat.length) pat rep
    else c :: strReplaceF fuel cs pat rep

/-- Model of Python `str.replace` (all non-overlapping occurrences, left to
right, with the scan resuming after each inserted replacement).  The fuel of
`strReplaceF` only forces structural termination. -/
def strReplace (s pat rep : List Char) : List Char := strReplaceF s.length s pat rep

/-- The final substitution loop:
`for i, rep in enumerate(replacements): escaped = escaped.replace(f"@@BOLD{i}@@", rep)`. -/
def substLoop : List Char → List (List Char) → Nat → List Char
  | s, [], _ => s
  | s, rep :: rest, i => substLoop (strReplace s (placeholder i) rep) rest (i + 1)

/-- First regex pass (angle style) of `bracket_to_bold_html_from_text`. -/
def bbP1 (text : List Char) : List Char × List (List Char) := subPass '<' '>' text []

/-- Second regex pass (square style), on the first pass's output. -/
def bbP2 (text : List Char) : List Char × List (List Char) :=
  subPass '[' ']' (bbP1 text).1 (bbP1 text).2

/-- The three regex passes of `bracket_to_bold_html_from_text`, in source
order: angle, then square, then curly, threading the shared replacement
list. -/
def bbPasses (text : List Char) : List Char × List (List Char) :=
  subPass '\x7b' '\x7d' (bbP2 text).1 (bbP2 text).2

/-- Model of `bracket_to_bold_html_from_text`: three bracket-style passes over
the text (collecting `<strong>` replacements and leaving placeholders), then
deletion of all remaining bracket characters, HTML-escaping, and placeholder
substitution. -/
def bracketToBold (text : List Char) : List Char :=
  substLoop (escPy (stripBracketChars (bbPasses text).1)) (bbPasses text).2 0

/-! ### Item-stream view of the passes (spec side, used for C8)

`Item` is the text as a later pass sees it, with content already replaced by
an earlier pass kept opaque: a replaced span is a single `tok` item carrying
its replacement index, so by construction a pass can only match delimiters in
live characters, never inside an earlier pass's replaced content. Rendering a
`tok` back to its `@@BOLD{i}@@` placeholder text recovers the string the real
code operates on. -/

inductive Item where
  | chr (c : Char)
  | tok (k : Nat)
deriving DecidableEq

def renderItem : Item → List Char
  | .chr c => [c]
  | .tok k => placeholder k

def renderItems : List Item → List Char
  | [] => []
  | it :: rest => renderItem it ++ renderItems rest

def itemNotBr (op cl : Char) : Item → Bool
  | .chr c => notBr op cl c
  | .tok _ => true

def itemPassF (op cl : Char) : Nat → List Item → List (List Char) → List Item × List (List Char)
  | 0, l, reps => (l, reps)
  | _ + 1, [], reps => ([], reps)
  | fuel + 1, .tok k :: rest, reps =>
    (.tok k :: (itemPassF op cl fuel rest reps).1, (itemPassF op cl fuel rest reps).2)
  | fuel + 1, .chr c :: rest, reps =>
    if c = op then
      match rest.dropWhile (itemNotBr op cl) with
      | .chr d :: r3 =>
        if d = cl ∧ rest.takeWhile (itemNotBr op cl) ≠ [] then
          (.tok reps.length ::
            (itemPassF op cl fuel r3
              (reps ++ [strongWrap (escPy (renderItems (rest.takeWhile (itemNotBr op cl))))])).1,
           (itemPassF op cl fuel r3
              (reps ++ [strongWrap (escPy (renderItems (rest.takeWhile (itemNotBr op cl))))])).2)
        else
          (.chr c :: (itemPassF op cl fuel rest reps).1, (itemPassF op cl fuel rest reps).2)
      | _ =>
        (.chr c :: (itemPassF op cl fuel rest reps).1, (itemPassF op cl fuel rest reps).2)
    else
      (.chr c :: (itemPassF op cl fuel rest reps).1, (itemPassF op cl fuel rest reps).2)

/-- One pass over the item stream: identical scanning logic to `subPass`,
except that replaced content is atomic (`tok` items match no delimiter). -/
def itemPass (op cl : Char) (l : List Item) (reps : List (List Char)) :
    List Item × List (List Char) :=
  itemPassF op cl l.length l reps

theorem itemPassF_fuel (op cl : Char) :
    ∀ (f1 : Nat), ∀ (f2 : Nat) (l : List Item) (reps : List (List Char)),
      l.length ≤ f1 → l.length ≤ f2 →
      itemPassF op cl f1 l reps = itemPassF op cl f2 l reps := by
  intro f1
  induction f1 with
  | zero =>
    intro f2 l reps h1 _
    have : l = [] := List.eq_nil_of_length_eq_zero (by omega)
    subst this
    cases f2 <;> rfl
  | succ f ih =>
    intro f2 l reps h1 h2
    rcases l with _ | ⟨it, rest⟩
    · cases f2 <;> rfl
    · rcases f2 with _ | f2x
      · simp at h2
      · simp only [List.length_cons] at h1 h2
        rcases it with c | k
        · show itemPassF op cl (f + 1) (.chr c :: rest) reps
              = itemPassF op cl (f2x + 1) (.chr c :: rest) reps
          rw [itemPassF, itemPassF]
          by_cases hc : c = op
          · rw [if_pos hc, if_pos hc]
            rcases hdd : rest.dropWhile (itemNotBr op cl) with _ | ⟨d, r3⟩
            · simp only [hdd]
              rw [ih f2x rest reps (by omega) (by omega)]
            · rcases d with d | j
              · simp only [hdd]
                by_cases hcond : d = cl ∧ rest.takeWhile (itemNotBr op cl) ≠ []
                · rw [if_pos hcond, if_pos hcond]
                  have hr3 : r3.length < rest.length := by
                    have := dropWhile_length_le (p := itemNotBr op cl) rest
                    rw [hdd] at this
                    simp only [List.length_cons] at this
                    omega
                  rw [ih f2x r3 _ (by omega) (by omega)]
                · rw [if_neg hcond, if_neg hcond]
                  rw [ih f2x rest reps (by omega) (by omega)]
              · simp only [hdd]
                rw [ih f2x rest reps (by omega) (by omega)]
          · rw [if_neg hc, if_neg hc]
            rw [ih f2x rest reps (by omega) (by omega)]
        · show itemPassF op cl (f + 1) (.tok k :: rest) reps
              = itemPassF op cl (f2x + 1) (.tok k :: rest) reps
          rw [itemPassF, itemPassF]
          rw [ih f2x rest reps (by omega) (by omega)]

def itemStrip (l : List Item) : List Item :=
  l.filter (fun it =>
    match it with
    | .chr c => !isBracketChar c
    | .tok _ => true)

def itemEsc : List Item → List Item
  | [] => []
  | .chr c :: rest => (escPyChar c).map .chr ++ itemEsc rest
  | .tok k :: rest => .tok k :: itemEsc rest

/-- The spec-side pipeline: the three passes in the fixed order angle, square,
curly, on the item stream (replaced content atomic), followed by the same
strip/escape/substitute finale on the rendered text. -/
def ibP1 (text : List Char) : List Item × List (List Char) :=
  itemPass '<' '>' (text.map .chr) []

def ibP2 (text : List Char) : List Item × List (List Char) :=
  itemPass '[' ']' (ibP1 text).1 (ibP1 text).2

def ibP3 (text : List Char) : List Item × List (List Char) :=
  itemPass '\x7b' '\x7d' (ibP2 text).1 (ibP2 text).2

def itemBracketToBold (text : List Char) : List Char :=
  substLoop (renderItems (itemEsc (itemStrip (ibP3 text).1))) (ibP3 text).2 0

/-! ### Characters of a placeholder -/

/-- Characters that can occur in a `@@BOLD{i}@@` placeholder. -/
def phSafe (c : Char) : Bool :=
  c = '@' || c = 'B' || c = 'O' || c = 'L' || c = 'D' || pyDigit c

theorem digitChar_mem (m : Nat) : digitChar m ∈ "0123456789".toList := by
  unfold digitChar
  by_cases h : m < ("0123456789".toList).length
  · rw [List.getD_eq_getElem _ _ h]
    exact List.getElem_mem ..
  · rw [List.getD_eq_default _ _ (by omega)]
    decide

theorem decDigitsAux_digits :
    ∀ (fuel n : Nat) (c : Char), c ∈ decDigitsAux fuel n → pyDigit c = true := by
  intro fuel
  induction fuel with
  | zero => intro n c h; simp [decDigitsAux] at h
  | succ f ih =>
    intro n c h
    rw [decDigitsAux] at h
    by_cases hn : n < 10
    · rw [if_pos hn] at h
      simp only [List.mem_singleton] at h
      subst h
      exact decide_eq_true (digitChar_mem n)
    · rw [if_neg hn] at h
      rcases List.mem_append.mp h with h | h
      · exact ih _ c h
      · simp only [List.mem_singleton] at h
        subst h
        exact decide_eq_true (digitChar_mem (n % 10))

theorem placeholder_chars (k : Nat) (c : Char) (h : c ∈ placeholder k) :
    phSafe c = true := by
  unfold placeholder at h
  rcases List.mem_append.mp h with h | h
  · rcases List.mem_append.mp h with h | h
    · fin_cases h <;> decide
    · have := decDigitsAux_digits _ _ c h
      simp [phSafe, this]
  · fin_cases h <;> decide

theorem phSafe_not_bracket (c : Char) (h : phSafe c = true) : isBracketChar c = false := by
  simp only [phSafe, Bool.or_eq_true, decide_eq_true_eq] at h
  rcases h with ((((rfl | rfl) | rfl) | rfl) | rfl) | hd
  · decide
  · decide
  · decide
  · decide
  · decide
  · have hm : c ∈ "0123456789".toList := of_decide_eq_true hd
    fin_cases hm <;> decide

theorem phSafe_notBr (op cl : Char) (hop : isBracketChar op = true)
    (hcl : isBracketChar cl = true) (c : Char) (h : phSafe c = true) :
    notBr op cl c = true := by
  have hb := phSafe_not_bracket c h
  unfold notBr
  have h1 : c ≠ op := by
    intro he
    rw [he] at hb
    rw [hb] at hop
    exact Bool.false_ne_true hop
  have h2 : c ≠ cl := by
    intro he
    rw [he] at hb
    rw [hb] at hcl
    exact Bool.false_ne_true hcl
  simp [h1, h2]

theorem phSafe_ne_op (op : Char) (hop : isBracketChar op = true)
    (c : Char) (h : phSafe c = true) : c ≠ op := by
  intro he
  have hb := phSafe_not_bracket c h
  rw [he] at hb
  rw [hb] at hop
  exact Bool.false_ne_true hop

theorem phSafe_esc (c : Char) (h : phSafe c = true) : escPyChar c = [c] := by
  simp only [phSafe, Bool.or_eq_true, decide_eq_true_eq] at h
  rcases h with ((((rfl | rfl) | rfl) | rfl) | rfl) | hd
  · decide
  · decide
  · decide
  · decide
  · decide
  · have hm : c ∈ "0123456789".toList := of_decide_eq_true hd
    fin_cases hm <;> decide

/-! ### Rendering lemmas -/

theorem renderItems_append :
    ∀ (a b : List Item), renderItems (a ++ b) = renderItems a ++ renderItems b := by
  intro a
  induction a with
  | nil => intro b; rfl
  | cons it rest ih =>
    intro b
    show renderItem it ++ renderItems (rest ++ b) = renderItem it ++ renderItems rest ++ renderItems b
    rw [ih, List.append_assoc]

theorem renderItems_map_chr (l : List Char) : renderItems (l.map .chr) = l := by
  induction l with
  | nil => rfl
  | cons c cs ih => simp only [List.map_cons, renderItems, renderItem, ih]; rfl

theorem renderItems_eq_nil (l : List Item) : renderItems l = [] ↔ l = [] := by
  constructor
  · intro h
    rcases l with _ | ⟨it, rest⟩
    · rfl
    · exfalso
      rcases it with c | k
      · simp [renderItems, renderItem] at h
      · rw [renderItems, renderItem] at h
        rcases hp : placeholder k with _ | ⟨x, xs⟩
        · exact absurd hp (by unfold placeholder; simp)
        · rw [hp] at h
          simp at h
  · intro h; subst h; rfl

theorem dropWhile_head_not {α : Type _} {p : α → Bool} :
    ∀ (l : List α) (x : α) (xs : List α), l.dropWhile p = x :: xs → p x = false := by
  intro l
  induction l with
  | nil => intro x xs h; simp [List.dropWhile] at h
  | cons c cs ih =>
    intro x xs h
    rw [List.dropWhile_cons] at h
    by_cases hc : p c = true
    · rw [if_pos hc] at h; exact ih x xs h
    · rw [if_neg hc] at h
      injection h with h1 h2
      subst h1
      simpa using hc

theorem itemTakeWhile_append_all {p : Item → Bool} :
    ∀ (a b : List Item), (∀ c ∈ a, p c = true) →
      (a ++ b).takeWhile p = a ++ b.takeWhile p := by
  intro a
  induction a with
  | nil => intro b _; simp
  | cons x xs ih =>
    intro b h
    have hx : p x = true := h x (by simp)
    simp only [List.cons_append, List.takeWhile_cons, hx, if_true]
    rw [ih b (fun c hc => h c (by simp [hc]))]

/-- takeWhile and dropWhile commute with rendering: a bracket-delimiter scan
over the rendered text never stops inside a placeholder (whose characters are
never delimiters). -/
theorem scanWhile_render (op cl : Char) (hop : isBracketChar op = true)
    (hcl : isBracketChar cl = true) :
    ∀ (l : List Item),
      (renderItems l).takeWhile (notBr op cl)
        = renderItems (l.takeWhile (itemNotBr op cl)) ∧
      (renderItems l).dropWhile (notBr op cl)
        = renderItems (l.dropWhile (itemNotBr op cl)) := by
  intro l
  induction l with
  | nil => exact ⟨rfl, rfl⟩
  | cons it rest ih =>
    rcases it with c | k
    · have hit : itemNotBr op cl (Item.chr c) = notBr op cl c := rfl
      constructor
      · show (c :: renderItems rest).takeWhile (notBr op cl)
            = renderItems ((Item.chr c :: rest).takeWhile (itemNotBr op cl))
        rw [List.takeWhile_cons, List.takeWhile_cons, hit]
        by_cases hc : notBr op cl c = true
        · rw [if_pos hc, if_pos hc]
          show c :: (renderItems rest).takeWhile (notBr op cl)
              = renderItems (Item.chr c :: rest.takeWhile (itemNotBr op cl))
          rw [ih.1]
          rfl
        · rw [if_neg hc, if_neg hc]
          rfl
      · show (c :: renderItems rest).dropWhile (notBr op cl)
            = renderItems ((Item.chr c :: rest).dropWhile (itemNotBr op cl))
        rw [List.dropWhile_cons, List.dropWhile_cons, hit]
        by_cases hc : notBr op cl c = true
        · rw [if_pos hc, if_pos hc]
          exact ih.2
        · rw [if_neg hc, if_neg hc]
          rfl
    · have hall : ∀ c ∈ placeholder k, notBr op cl c = true :=
        fun c hc => phSafe_notBr op cl hop hcl c (placeholder_chars k c hc)
      have hit : itemNotBr op cl (Item.tok k) = true := rfl
      constructor
      · show (placeholder k ++ renderItems rest).takeWhile (notBr op cl)
            = renderItems ((Item.tok k :: rest).takeWhile (itemNotBr op cl))
        rw [takeWhile_append_all _ _ hall, List.takeWhile_cons, hit, if_pos rfl]
        show placeholder k ++ (renderItems rest).takeWhile (notBr op cl)
            = renderItems (Item.tok k :: rest.takeWhile (itemNotBr op cl))
        rw [ih.1]
        rfl
      · show (placeholder k ++ renderItems rest).dropWhile (notBr op cl)
            = renderItems ((Item.tok k :: rest).dropWhile (itemNotBr op cl))
        rw [dropWhile_append_all _ _ hall, List.dropWhile_cons, hit, if_pos rfl]
        exact ih.2

/-! ### Step equations for the passes -/

theorem subPass_nil (op cl : Char) (reps : List (List Char)) :
    subPass op cl [] reps = ([], reps) := rfl

theorem subPass_cons_other (op cl c : Char) (rest : List Char) (reps : List (List Char))
    (hc : ¬c = op) :
    subPass op cl (c :: rest) reps
      = (c :: (subPass op cl rest reps).1, (subPass op cl rest reps).2) := by
  show subPassF op cl (rest.length + 1) (c :: rest) reps = _
  rw [subPassF, if_neg hc]
  rfl

theorem subPass_cons_dropnil (op cl : Char) (rest : List Char) (reps : List (List Char))
    (hd : rest.dropWhile (notBr op cl) = []) :
    subPass op cl (op :: rest) reps
      = (op :: (subPass op cl rest reps).1, (subPass op cl rest reps).2) := by
  show subPassF op cl (rest.length + 1) (op :: rest) reps = _
  rw [subPassF, if_pos rfl]
  simp only [hd]
  rfl

theorem subPass_cons_hit (op cl d : Char) (rest r3 : List Char) (reps : List (List Char))
    (hd : rest.dropWhile (notBr op cl) = d :: r3)
    (hcond : d = cl ∧ rest.takeWhile (notBr op cl) ≠ []) :
    subPass op cl (op :: rest) reps
      = (placeholder reps.length ++
          (subPass op cl r3 (reps ++ [strongWrap (escPy (rest.takeWhile (notBr op cl)))])).1,
        (subPass op cl r3 (reps ++ [strongWrap (escPy (rest.takeWhile (notBr op cl)))])).2) := by
  have hle : r3.length ≤ rest.length := by
    have := dropWhile_length_le (p := notBr op cl) rest
    rw [hd] at this
    simp only [List.length_cons] at this
    omega
  show subPassF op cl (rest.length + 1) (op :: rest) reps = _
  rw [subPassF, if_pos rfl]
  simp only [hd]
  rw [if_pos hcond,
    subPassF_fuel op cl rest.length r3.length r3 _ hle le_rfl]
  rfl

theorem subPass_cons_miss (op cl d : Char) (rest r3 : List Char) (reps : List (List Char))
    (hd : rest.dropWhile (notBr op cl) = d :: r3)
    (hcond : ¬(d = cl ∧ rest.takeWhile (notBr op cl) ≠ [])) :
    subPass op cl (op :: rest) reps
      = (op :: (subPass op cl rest reps).1, (subPass op cl rest reps).2) := by
  show subPassF op cl (rest.length + 1) (op :: rest) reps = _
  rw [subPassF, if_pos rfl]
  simp only [hd]
  rw [if_neg hcond]
  rfl

theorem itemPass_nil (op cl : Char) (reps : List (List Char)) :
    itemPass op cl [] reps = ([], reps) := rfl

theorem itemPass_tok (op cl : Char) (k : Nat) (rest : List Item) (reps : List (List Char)) :
    itemPass op cl (.tok k :: rest) reps
      = (.tok k :: (itemPass op cl rest reps).1, (itemPass op cl rest reps).2) := by
  show itemPassF op cl (rest.length + 1) (.tok k :: rest) reps = _
  rw [itemPassF]
  rfl

theorem itemPass_chr_other (op cl c : Char) (rest : List Item) (reps : List (List Char))
    (hc : ¬c = op) :
    itemPass op cl (.chr c :: rest) reps
      = (.chr c :: (itemPass op cl rest reps).1, (itemPass op cl rest reps).2) := by
  show itemPassF op cl (rest.length + 1) (.chr c :: rest) reps = _
  rw [itemPassF, if_neg hc]
  rfl

theorem itemPass_chr_dropother (op cl : Char) (rest : List Item) (reps : List (List Char))
    (hd : rest.dropWhile (itemNotBr op cl) = [] ∨
      ∃ j r3, rest.dropWhile (itemNotBr op cl) = .tok j :: r3) :
    itemPass op cl (.chr op :: rest) reps
      = (.chr op :: (itemPass op cl rest reps).1, (itemPass op cl rest reps).2) := by
  show itemPassF op cl (rest.length + 1) (.chr op :: rest) reps = _
  rw [itemPassF, if_pos rfl]
  rcases hd with hd | ⟨j, r3, hd⟩ <;> simp only [hd] <;> rfl

theorem itemPass_chr_hit (op cl d : Char) (rest r3 : List Item) (reps : List (List Char))
    (hd : rest.dropWhile (itemNotBr op cl) = .chr d :: r3)
    (hcond : d = cl ∧ rest.takeWhile (itemNotBr op cl) ≠ []) :
    itemPass op cl (.chr op :: rest) reps
      = (.tok reps.length ::
          (itemPass op cl r3
            (reps ++ [strongWrap (escPy (renderItems (rest.takeWhile (itemNotBr op cl))))])).1,
        (itemPass op cl r3
          (reps ++ [strongWrap (escPy (renderItems (rest.takeWhile (itemNotBr op cl))))])).2) := by
  have hle : r3.length ≤ rest.length := by
    have := dropWhile_length_le (p := itemNotBr op cl) rest
    rw [hd] at this
    simp only [List.length_cons] at this
    omega
  show itemPassF op cl (rest.length + 1) (.chr op :: rest) reps = _
  rw [itemPassF, if_pos rfl]
  simp only [hd]
  rw [if_pos hcond,
    itemPassF_fuel op cl rest.length r3.length r3 _ hle le_rfl]
  rfl

theorem itemPass_chr_miss (op cl d : Char) (rest r3 : List Item) (reps : List (List Char))
    (hd : rest.dropWhile (itemNotBr op cl) = .chr d :: r3)
    (hcond : ¬(d = cl ∧ rest.takeWhile (itemNotBr op cl) ≠ [])) :
    itemPass op cl (.chr op :: rest) reps
      = (.chr op :: (itemPass op cl rest reps).1, (itemPass op cl rest reps).2) := by
  show itemPassF op cl (rest.length + 1) (.chr op :: rest) reps = _
  rw [itemPassF, if_pos rfl]
  simp only [hd]
  rw [if_neg hcond]
  rfl


theorem subPass_skip (op cl : Char) :
    ∀ (a : List Char), (∀ c ∈ a, c ≠ op) → ∀ (x : List Char) (reps : List (List Char)),
      subPass op cl (a ++ x) reps
        = (a ++ (subPass op cl x reps).1, (subPass op cl x reps).2) := by
  intro a
  induction a with
  | nil => intro _ x reps; simp
  | cons c a2 ih =>
    intro h x reps
    rw [List.cons_append, subPass_cons_other op cl c _ reps (h c (by simp)),
      ih (fun d hd => h d (by simp [hd])) x reps]
    simp

/-- The passes commute with rendering: performing a string pass on the
rendered text equals performing the item pass and rendering afterwards — i.e.
a pass matches delimiters only in live characters, never inside a
placeholder standing for earlier-replaced content. -/
theorem subPass_render (op cl : Char) (hop : isBracketChar op = true)
    (hcl : isBracketChar cl = true) :
    ∀ (n : Nat) (items : List Item), items.length ≤ n → ∀ (reps : List (List Char)),
      subPass op cl (renderItems items) reps
        = (renderItems (itemPass op cl items reps).1, (itemPass op cl items reps).2) := by
  intro n
  induction n with
  | zero =>
    intro items hlen reps
    have : items = [] := List.eq_nil_of_length_eq_zero (by omega)
    subst this
    rw [itemPass_nil]
    exact subPass_nil op cl reps
  | succ m ih =>
    intro items hlen reps
    rcases items with _ | ⟨it, rest⟩
    · rw [itemPass_nil]
      exact subPass_nil op cl reps
    · rcases it with c | k
      · -- a live character
        show subPass op cl (c :: renderItems rest) reps = _
        by_cases hc : c = op
        · rw [hc]
          -- the delimiter scan on the rendered tail
          have hsc := scanWhile_render op cl hop hcl rest
          rcases hdi : rest.dropWhile (itemNotBr op cl) with _ | ⟨d, r3⟩
          · -- nothing to close the span
            have hds : (renderItems rest).dropWhile (notBr op cl) = [] := by
              rw [hsc.2, hdi]; rfl
            rw [subPass_cons_dropnil op cl _ reps hds,
              itemPass_chr_dropother op cl rest reps (Or.inl hdi),
              ih rest (by simp only [List.length_cons] at hlen; omega) reps]
            rfl
          · rcases d with d | j
            · -- scan stopped at a live delimiter character
              have hds : (renderItems rest).dropWhile (notBr op cl)
                  = d :: renderItems r3 := by
                rw [hsc.2, hdi]; rfl
              by_cases hcond : d = cl ∧ rest.takeWhile (itemNotBr op cl) ≠ []
              · have hconds : d = cl ∧ (renderItems rest).takeWhile (notBr op cl) ≠ [] := by
                  refine ⟨hcond.1, ?_⟩
                  rw [hsc.1]
                  intro hnil
                  exact hcond.2 ((renderItems_eq_nil _).mp hnil)
                rw [subPass_cons_hit op cl d (renderItems rest) (renderItems r3) reps hds hconds,
                  itemPass_chr_hit op cl d rest r3 reps hdi hcond]
                have hr3 : r3.length ≤ m := by
                  have h1 := dropWhile_length_le (p := itemNotBr op cl) rest
                  rw [hdi] at h1
                  simp only [List.length_cons] at h1 hlen
                  omega
                rw [hsc.1]
                rw [ih r3 hr3 (reps ++ [strongWrap (escPy (renderItems (rest.takeWhile (itemNotBr op cl))))])]
                rfl
              · have hconds : ¬(d = cl ∧ (renderItems rest).takeWhile (notBr op cl) ≠ []) := by
                  intro hcs
                  apply hcond
                  refine ⟨hcs.1, ?_⟩
                  intro hnil
                  exact hcs.2 (by rw [hsc.1, hnil]; rfl)
                rw [subPass_cons_miss op cl d (renderItems rest) (renderItems r3) reps hds hconds,
                  itemPass_chr_miss op cl d rest r3 reps hdi hcond,
                  ih rest (by simp only [List.length_cons] at hlen; omega) reps]
                rfl
            · -- the delimiter scan cannot stop at a placeholder
              exact absurd (dropWhile_head_not rest _ _ hdi) (by simp [itemNotBr])
        · rw [subPass_cons_other op cl c _ reps hc,
            itemPass_chr_other op cl c rest reps hc,
            ih rest (by simp only [List.length_cons] at hlen; omega) reps]
          rfl
      · -- a placeholder: copied through unchanged
        show subPass op cl (placeholder k ++ renderItems rest) reps = _
        have hne : ∀ c ∈ placeholder k, c ≠ op :=
          fun c hc => phSafe_ne_op op hop c (placeholder_chars k c hc)
        rw [subPass_skip op cl (placeholder k) hne (renderItems rest) reps,
          itemPass_tok op cl k rest reps,
          ih rest (by simp only [List.length_cons] at hlen; omega) reps]
        rfl

/-! ### The translate/escape finale commutes with rendering too -/

theorem escPy_append : ∀ (a b : List Char), escPy (a ++ b) = escPy a ++ escPy b := by
  intro a
  induction a with
  | nil => intro b; rfl
  | cons c cs ih =>
    intro b
    show escPyChar c ++ escPy (cs ++ b) = (escPyChar c ++ escPy cs) ++ escPy b
    rw [ih, List.append_assoc]

theorem escPy_id (a : List Char) (h : ∀ c ∈ a, escPyChar c = [c]) : escPy a = a := by
  induction a with
  | nil => rfl
  | cons c cs ih =>
    show escPyChar c ++ escPy cs = c :: cs
    rw [h c (by simp), ih (fun d hd => h d (by simp [hd]))]
    rfl

theorem renderItems_strip (l : List Item) :
    stripBracketChars (renderItems l) = renderItems (itemStrip l) := by
  induction l with
  | nil => rfl
  | cons it rest ih =>
    rcases it with c | k
    · show stripBracketChars (c :: renderItems rest)
          = renderItems (itemStrip (Item.chr c :: rest))
      unfold stripBracketChars itemStrip
      rw [List.filter_cons, List.filter_cons]
      by_cases hc : isBracketChar c = true
      · rw [if_neg (by simp [hc]), if_neg (by simp [hc])]
        exact ih
      · have hc2 : (!isBracketChar c) = true := by simp [Bool.not_eq_true] at hc ⊢; exact hc
        rw [if_pos hc2, if_pos (by show (!isBracketChar c) = true; exact hc2)]
        show c :: stripBracketChars (renderItems rest) = renderItems (Item.chr c :: List.filter _ rest)
        rw [ih]
        rfl
    · show stripBracketChars (placeholder k ++ renderItems rest)
          = renderItems (itemStrip (Item.tok k :: rest))
      unfold stripBracketChars itemStrip
      rw [List.filter_append, List.filter_cons]
      have hph : (placeholder k).filter (fun c => !isBracketChar c) = placeholder k :=
        List.filter_eq_self.mpr (fun c hc => by
          simp [phSafe_not_bracket c (placeholder_chars k c hc)])
      rw [hph, if_pos (by rfl)]
      show placeholder k ++ stripBracketChars (renderItems rest)
          = renderItems (Item.tok k :: List.filter _ rest)
      rw [ih]
      rfl

theorem renderItems_esc (l : List Item) :
    escPy (renderItems l) = renderItems (itemEsc l) := by
  induction l with
  | nil => rfl
  | cons it rest ih =>
    rcases it with c | k
    · show escPy (c :: renderItems rest) = renderItems (itemEsc (Item.chr c :: rest))
      rw [itemEsc]
      show escPyChar c ++ escPy (renderItems rest)
          = renderItems ((escPyChar c).map Item.chr ++ itemEsc rest)
      rw [renderItems_append, renderItems_map_chr, ih]
    · show escPy (placeholder k ++ renderItems rest)
          = renderItems (itemEsc (Item.tok k :: rest))
      rw [itemEsc, escPy_append,
        escPy_id (placeholder k) (fun c hc => phSafe_esc c (placeholder_chars k c hc)), ih]
      rfl

/-- C8: the three bracket styles are resolved in the fixed source order —
angle, then square, then curly — as successive non-overlapping passes, and a
style's delimiters are never matched inside content already replaced by an
earlier style's pass: the code (which operates on placeholder text) computes
exactly the item-stream pipeline in which every replaced span is a single
atomic token that no later pass can match into. -/
theorem bracket_passes_ordered (text : List Char) :
    bracketToBold text = itemBracketToBold text := by
  have e1 : bbP1 text = (renderItems (ibP1 text).1, (ibP1 text).2) := by
    unfold bbP1 ibP1
    have h := subPass_render '<' '>' (by decide) (by decide)
      (text.map Item.chr).length (text.map Item.chr) le_rfl []
    rw [renderItems_map_chr] at h
    exact h
  have e2 : bbP2 text = (renderItems (ibP2 text).1, (ibP2 text).2) := by
    unfold bbP2 ibP2
    rw [e1]
    exact subPass_render '[' ']' (by decide) (by decide)
      (ibP1 text).1.length (ibP1 text).1 le_rfl (ibP1 text).2
  have e3 : bbPasses text = (renderItems (ibP3 text).1, (ibP3 text).2) := by
    unfold bbPasses ibP3
    rw [e2]
    exact subPass_render '\x7b' '\x7d' (by decide) (by decide)
      (ibP2 text).1.length (ibP2 text).1 le_rfl (ibP2 text).2
  unfold bracketToBold itemBracketToBold
  rw [e3]
  show substLoop (escPy (stripBracketChars (renderItems (ibP3 text).1))) (ibP3 text).2 0 = _
  rw [renderItems_strip, renderItems_esc]

/-! ### Output shape of the plain-text normalizer (C4) -/

theorem escPyChar_no_angle (d c : Char) (h : c ∈ escPyChar d) : c ≠ '<' ∧ c ≠ '>' := by
  unfold escPyChar at h
  split_ifs at h with h1 h2 h3 h4 h5
  · fin_cases h <;> decide
  · fin_cases h <;> decide
  · fin_cases h <;> decide
  · fin_cases h <;> decide
  · fin_cases h <;> decide
  · simp only [List.mem_singleton] at h
    subst h
    exact ⟨h2, h3⟩

theorem escPy_no_angle : ∀ (l : List Char) (c : Char), c ∈ escPy l → c ≠ '<' ∧ c ≠ '>' := by
  intro l
  induction l with
  | nil => intro c h; simp [escPy] at h
  | cons d ds ih =>
    intro c h
    rcases List.mem_append.mp h with h | h
    · exact escPyChar_no_angle d c h
    · exact ih c h

theorem escPyChar_no_bracket (d c : Char) (hd : isBracketChar d = false)
    (h : c ∈ escPyChar d) : isBracketChar c = false := by
  unfold escPyChar at h
  split_ifs at h with h1 h2 h3 h4 h5
  · fin_cases h <;> decide
  · fin_cases h <;> decide
  · fin_cases h <;> decide
  · fin_cases h <;> decide
  · fin_cases h <;> decide
  · simp only [List.mem_singleton] at h
    subst h
    exact hd

theorem escPy_no_bracket : ∀ (l : List Char), (∀ d ∈ l, isBracketChar d = false) →
    ∀ c ∈ escPy l, isBracketChar c = false := by
  intro l
  induction l with
  | nil => intro _ c h; simp [escPy] at h
  | cons d ds ih =>
    intro hl c h
    rcases List.mem_append.mp h with h | h
    · exact escPyChar_no_bracket d c (hl d (by simp)) h
    · exact ih (fun e he => hl e (by simp [he])) c h

/-- Every replacement stored by the passes is a `<strong>`-wrapped segment
whose interior contains no angle bracket (angle brackets in content were
escaped when the replacement was built). -/
def StrongShape (r : List Char) : Prop :=
  ∃ mid, r = strongWrap mid ∧ ∀ c ∈ mid, c ≠ '<' ∧ c ≠ '>'

theorem subPass_shape (op cl : Char) :
    ∀ (n : Nat) (l : List Char), l.length ≤ n →
      ∀ (reps : List (List Char)), (∀ r ∈ reps, StrongShape r) →
      ∀ r ∈ (subPass op cl l reps).2, StrongShape r := by
  intro n
  induction n with
  | zero =>
    intro l hlen reps hreps
    have : l = [] := List.eq_nil_of_length_eq_zero (by omega)
    subst this
    rw [subPass_nil]
    exact hreps
  | succ m ih =>
    intro l hlen reps hreps
    rcases l with _ | ⟨c, rest⟩
    · rw [subPass_nil]; exact hreps
    · simp only [List.length_cons] at hlen
      by_cases hc : c = op
      · rw [hc]
        rcases hdd : rest.dropWhile (notBr op cl) with _ | ⟨d, r3⟩
        · rw [subPass_cons_dropnil op cl rest reps hdd]
          exact ih rest (by omega) reps hreps
        · by_cases hcond : d = cl ∧ rest.takeWhile (notBr op cl) ≠ []
          · rw [subPass_cons_hit op cl d rest r3 reps hdd hcond]
            have hr3 : r3.length ≤ m := by
              have := dropWhile_length_le (p := notBr op cl) rest
              rw [hdd] at this
              simp only [List.length_cons] at this
              omega
            refine ih r3 hr3 _ ?_
            intro r hr
            rcases List.mem_append.mp hr with hr | hr
            · exact hreps r hr
            · simp only [List.mem_singleton] at hr
              subst hr
              exact ⟨escPy (rest.takeWhile (notBr op cl)), rfl,
                fun c hcm => escPy_no_angle _ c hcm⟩
          · rw [subPass_cons_miss op cl d rest r3 reps hdd hcond]
            exact ih rest (by omega) reps hreps
      · rw [subPass_cons_other op cl c rest reps hc]
        exact ih rest (by omega) reps hreps

theorem bbPasses_shape (text : List Char) : ∀ r ∈ (bbPasses text).2, StrongShape r := by
  have s1 : ∀ r ∈ (bbP1 text).2, StrongShape r :=
    subPass_shape '<' '>' text.length text le_rfl [] (by intro r hr; simp at hr)
  have s2 : ∀ r ∈ (bbP2 text).2, StrongShape r :=
    subPass_shape '[' ']' (bbP1 text).1.length (bbP1 text).1 le_rfl (bbP1 text).2 s1
  exact subPass_shape '\x7b' '\x7d' (bbP2 text).1.length (bbP2 text).1 le_rfl (bbP2 text).2 s2

/-- C4 counterexample: in `"<a[b>"` the `[` forms no complete matched pair
(there is no `]` at all), yet it survives into the output, inside the bold
span produced for the angle pair around it. -/
theorem bracket_to_bold_claim_false :
    bracketToBold "<a[b>".toList = "<strong>a[b</strong>".toList ∧
    ']' ∉ "<a[b>".toList ∧
    '[' ∈ bracketToBold "<a[b>".toList := by
  refine ⟨by decide, by decide, by decide⟩

/-- C4 (amended): the concrete example converts each bracket style to a
`<strong>` span; an unmatched bracket alone is stripped with no bold marker
produced; and in general every bracket character OUTSIDE replaced span
contents is stripped: the output is assembled by substituting the stored
`<strong>` segments (whose interiors may retain bracket characters of other
styles but never raw angle brackets) into a text that contains no bracket
character at all. -/
theorem bracket_to_bold_spec :
    (bracketToBold "Hello <World> and [Foo] and \x7bBar\x7d".toList
      = "Hello <strong>World</strong> and <strong>Foo</strong> and <strong>Bar</strong>".toList) ∧
    (bracketToBold "ab[cd".toList = "abcd".toList ∧
      findSub "<strong>".toList (bracketToBold "ab[cd".toList) = none) ∧
    (∀ text : List Char,
      (∀ c ∈ escPy (stripBracketChars (bbPasses text).1), isBracketChar c = false) ∧
      bracketToBold text
        = substLoop (escPy (stripBracketChars (bbPasses text).1)) (bbPasses text).2 0 ∧
      (∀ r ∈ (bbPasses text).2, StrongShape r)) := by
  refine ⟨by decide, ⟨by decide, by decide⟩, ?_⟩
  intro text
  refine ⟨?_, rfl, bbPasses_shape text⟩
  apply escPy_no_bracket
  intro d hd
  have := List.of_mem_filter hd
  simpa using this

/-- Witness for C4's general part at a concrete input and character. -/
theorem bracket_to_bold_spec_witness :
    'x' ∈ escPy (stripBracketChars (bbPasses "x<y>".toList).1) ∧
    isBracketChar 'x' = false :=
  ⟨by decide, (bracket_to_bold_spec.2.2 "x<y>".toList).1 'x' (by decide)⟩

/-! ## The BeautifulSoup fragment tree

A parsed HTML fragment is a sequence of nodes; a node is a `NavigableString`
or a `Tag` with a name, attributes and child nodes.  BeautifulSoup's parsing
of a raw byte stream into this tree is an external collaborator; the tree
transformations of rr.py are modelled as functions on this type. -/

inductive HNode where
  | text (s : List Char)
  | elem (name : List Char) (attrs : List (List Char × List Char)) (children : List HNode)

/-! ## Markup normalizer, DOM form (_split_bracket_spans, apply_bracket_bolding_to_text_nodes) -/

/-- The closing delimiter of each bracket style. -/
def closeOf (c : Char) : Char := if c = '<' then '>' else if c = '[' then ']' else '\x7d'

/-- The combined alternation `(<[^<>]+>|\[[^\[\]]+\]|\{[^{}]+\})` of
`_split_bracket_spans`, as a left-to-right scan: the three alternatives start
with distinct characters, so at each position at most one can match.  `acc`
accumulates (reversed) the current plain-text gap; fuel only forces
structural termination (one character is consumed per step). -/
def sbsF : Nat → List Char → List Char → List (Bool × List Char)
  | 0, _, acc => if acc = [] then [] else [(false, acc.reverse)]
  | _ + 1, [], acc => if acc = [] then [] else [(false, acc.reverse)]
  | fuel + 1, c :: rest, acc =>
    if c = '<' ∨ c = '[' ∨ c = '\x7b' then
      match rest.dropWhile (notBr c (closeOf c)) with
      | d :: r3 =>
        if d = closeOf c ∧ rest.takeWhile (notBr c (closeOf c)) ≠ [] then
          (if acc = [] then [] else [(false, acc.reverse)]) ++
            (true, rest.takeWhile (notBr c (closeOf c))) :: sbsF fuel r3 []
        else sbsF fuel rest (c :: acc)
      | [] => sbsF fuel rest (c :: acc)
    else sbsF fuel rest (c :: acc)

/-- Model of `_split_bracket_spans`. -/
def splitBracketSpans (s : List Char) : List (Bool × List Char) := sbsF s.length s []

/-- Materialize segments: bold segments become `<strong>` elements holding the
span content verbatim; text segments have all stray bracket characters
removed (`str.translate`). -/
def boldSegNodes (segs : List (Bool × List Char)) : List HNode :=
  segs.map (fun seg =>
    if seg.1 then HNode.elem "strong".toList [] [HNode.text seg.2]
    else HNode.text (stripBracketChars seg.2))

/-- Processing of one text node by `apply_bracket_bolding_to_text_nodes`:
skip when no special character occurs; replace with the bracket-stripped text
when the split yields a single text segment; otherwise replace with the
materialized segment sequence. -/
def boldTextNode (s : List Char) : List HNode :=
  if s.any isBracketChar = false then [HNode.text s]
  else
    match splitBracketSpans s with
    | [(false, t)] => [HNode.text (stripBracketChars t)]
    | segs => boldSegNodes segs

mutual

/-- `apply_bracket_bolding_to_text_nodes` on a single node: text nodes are
rewritten, element nodes keep their name and attributes and have their
children processed (newly created `<strong>` nodes are not revisited: the
walk snapshots the descendants first). -/
def applyBoldNode : HNode → List HNode
  | .text s => boldTextNode s
  | .elem name attrs cs => [.elem name attrs (applyBoldList cs)]

def applyBoldList : List HNode → List HNode
  | [] => []
  | n :: rest => applyBoldNode n ++ applyBoldList rest

end

mutual

/-- No text node of the node contains a special bracket character. -/
def cleanNode : HNode → Bool
  | .text s => !s.any isBracketChar
  | .elem _ _ cs => cleanList cs

def cleanList : List HNode → Bool
  | [] => true
  | n :: rest => cleanNode n && cleanList rest

end

mutual

theorem applyBoldNode_clean : ∀ (n : HNode), cleanNode n = true → applyBoldNode n = [n]
  | .text s, h => by
    unfold applyBoldNode boldTextNode
    unfold cleanNode at h
    rw [Bool.not_eq_true'] at h
    rw [if_pos h]
  | .elem name attrs cs, h => by
    unfold applyBoldNode
    rw [applyBoldList_clean cs (by unfold cleanNode at h; exact h)]

theorem applyBoldList_clean : ∀ (l : List HNode), cleanList l = true → applyBoldList l = l
  | [], _ => rfl
  | n :: rest, h => by
    unfold applyBoldList
    unfold cleanList at h
    rw [Bool.and_eq_true] at h
    rw [applyBoldNode_clean n h.1, applyBoldList_clean rest h.2]
    rfl

end

/-- C5 counterexample: on the fragment consisting of the single text node
`<a[b>`, one application produces `<strong>a[b</strong>` (the unmatched `[`
survives inside the new bold element, which the snapshot walk does not
revisit), and a second application rewrites that text node to `ab` — so
applying the normalizer twice differs from applying it once. -/
theorem apply_bracket_bolding_claim_false :
    applyBoldList [.text "<a[b>".toList]
      = [.elem "strong".toList [] [.text "a[b".toList]] ∧
    applyBoldList (applyBoldList [.text "<a[b>".toList])
      = [.elem "strong".toList [] [.text "ab".toList]] ∧
    applyBoldList (applyBoldList [.text "<a[b>".toList])
      ≠ applyBoldList [.text "<a[b>".toList] := by
  have h1 : applyBoldList [.text "<a[b>".toList]
      = [.elem "strong".toList [] [.text "a[b".toList]] := rfl
  have h2 : applyBoldList (applyBoldList [.text "<a[b>".toList])
      = [.elem "strong".toList [] [.text "ab".toList]] := rfl
  refine ⟨h1, h2, ?_⟩
  rw [h2, h1]
  intro h
  simp at h

/-- C5 (amended): the DOM-form normalizer never alters element nodes (an
element keeps its tag and attributes, with only its children processed), it
is the identity on fragments whose text nodes contain no bracket characters,
and hence applying it twice equals applying it once whenever the
once-normalized fragment's text nodes are bracket-free (in particular
whenever no matched span's content retains a bracket of another style).  An
`<em>` wrapping unrelated text survives two runs unchanged. -/
theorem apply_bracket_bolding_spec :
    (∀ name attrs cs,
      applyBoldNode (.elem name attrs cs) = [.elem name attrs (applyBoldList cs)]) ∧
    (∀ f : List HNode, cleanList f = true → applyBoldList f = f) ∧
    (∀ f : List HNode, cleanList (applyBoldList f) = true →
      applyBoldList (applyBoldList f) = applyBoldList f) ∧
    (applyBoldList (applyBoldList [.elem "em".toList [] [.text "unrelated text".toList]])
      = [.elem "em".toList [] [.text "unrelated text".toList]]) := by
  refine ⟨fun name attrs cs => rfl, applyBoldList_clean, ?_, rfl⟩
  intro f h
  exact applyBoldList_clean (applyBoldList f) h

/-- Witness for C5 at a concrete fragment whose normal form is bracket-free. -/
theorem apply_bracket_bolding_spec_witness :
    cleanList (applyBoldList [.text "[hi]".toList]) = true ∧
    applyBoldList (applyBoldList [.text "[hi]".toList])
      = applyBoldList [.text "[hi]".toList] :=
  ⟨rfl, apply_bracket_bolding_spec.2.2.1 [.text "[hi]".toList] rfl⟩

/-! ## Noise stripper (strip_single_line_between_brs) -/

/-- Python `str.strip()` whitespace, restricted to the ASCII range (the
repository's inputs; the full Unicode table is not modelled). -/
def isPySpace (c : Char) : Bool :=
  c = ' ' || c = '\t' || c = '\n' || c = '\r' || c = '\x0b' || c = '\x0c'

/-- Python `str.strip()`. -/
def pyStrip (s : List Char) : List Char :=
  ((s.dropWhile isPySpace).reverse.dropWhile isPySpace).reverse

/-- The `nxt2` scan: skip whitespace-only strings after the candidate text,
then require a `<br>` tag.  Returns the sibling list starting at that tag. -/
def brAfter : List HNode → Option (List HNode)
  | [] => none
  | .text s :: rest => if pyStrip s = [] then brAfter rest else none
  | .elem name attrs cs :: rest =>
    if name = "br".toList then some (.elem name attrs cs :: rest) else none

/-- The `nxt` scan for one `<br>`, over its following siblings: skip
whitespace-only strings, require a text node whose trimmed value is
non-empty and at most `maxChars` long, then a `<br>` (with only whitespace
strings in between).  On success returns the matched text together with the
sibling list starting at the second `<br>` — exactly what remains after the
code extracts the text node and the whitespace strings around it. -/
def matchAfter (maxChars : Nat) : List HNode → Option (List Char × List HNode)
  | [] => none
  | .text s :: rest =>
    if pyStrip s = [] then matchAfter maxChars rest
    else if (pyStrip s).length ≤ maxChars then
      match brAfter rest with
      | some r => some (s, r)
      | none => none
    else none
  | .elem _ _ _ :: _ => none

mutual

/-- One pass of the `while changed` loop restricted to the subtree of one
node: find the first `<br>` (in document order) whose sibling pattern
matches, rewrite, and stop.  `none` means no match anywhere below. -/
def stepNode (maxChars : Nat) : HNode → Option HNode
  | .text _ => none
  | .elem name attrs cs =>
    match stepList maxChars cs with
    | some cs2 => some (.elem name attrs cs2)
    | none => none

def stepList (maxChars : Nat) : List HNode → Option (List HNode)
  | [] => none
  | .text s :: rest =>
    match stepList maxChars rest with
    | some r2 => some (.text s :: r2)
    | none => none
  | .elem name attrs cs :: rest =>
    if name = "br".toList then
      match matchAfter maxChars rest with
      | some (_, r) => some (.elem name attrs cs :: r)
      | none =>
        match stepNode maxChars (.elem name attrs cs) with
        | some n2 => some (n2 :: rest)
        | none =>
          match stepList maxChars rest with
          | some r2 => some (.elem name attrs cs :: r2)
          | none => none
    else
      match stepNode maxChars (.elem name attrs cs) with
      | some n2 => some (n2 :: rest)
      | none =>
        match stepList maxChars rest with
        | some r2 => some (.elem name attrs cs :: r2)
        | none => none

end

mutual

/-- Node count, used as fuel for the fixpoint loop. -/
def sizeNode : HNode → Nat
  | .text _ => 1
  | .elem _ _ cs => 1 + sizeList cs

def sizeList : List HNode → Nat
  | [] => 0
  | n :: rest => sizeNode n + sizeList rest

end

/-- The `while changed` loop: repeat single rewrites until none applies. -/
def stripIter (maxChars : Nat) : Nat → List HNode → List HNode
  | 0, f => f
  | fuel + 1, f =>
    match stepList maxChars f with
    | some f2 => stripIter maxChars fuel f2
    | none => f

/-- Model of `strip_single_line_between_brs` on a fragment (each rewrite
removes at least one node, so `sizeList f` rounds of fuel always reach the
fixpoint; proved below). -/
def stripBrs (maxChars : Nat) (f : List HNode) : List HNode :=
  stripIter maxChars (sizeList f) f

mutual

/-- The text-node values of a tree, in document order. -/
def textsNode : HNode → List (List Char)
  | .text s => [s]
  | .elem _ _ cs => textsList cs

def textsList : List HNode → List (List Char)
  | [] => []
  | n :: rest => textsNode n ++ textsList rest

end

mutual

/-- The element skeleton: every text node dropped, element structure kept. -/
def skelNode : HNode → List HNode
  | .text _ => []
  | .elem name attrs cs => [.elem name attrs (skelList cs)]

def skelList : List HNode → List HNode
  | [] => []
  | n :: rest => skelNode n ++ skelList rest

end

mutual

/-- The text values that sit in a removable position: directly after a
`<br>` sibling, matched by the `<br> ws* TEXT ws* <br>` pattern. -/
def flankedNode (maxChars : Nat) : HNode → List (List Char)
  | .text _ => []
  | .elem _ _ cs => flankedList maxChars cs

def flankedList (maxChars : Nat) : List HNode → List (List Char)
  | [] => []
  | n :: rest =>
    (match n with
     | .elem name _ _ =>
       if name = "br".toList then
         match matchAfter maxChars rest with
         | some (t, _) => [t]
         | none => []
       else []
     | .text _ => []) ++ flankedNode maxChars n ++ flankedList maxChars rest

end

theorem textsList_append (a b : List HNode) :
    textsList (a ++ b) = textsList a ++ textsList b := by
  induction a with
  | nil => rfl
  | cons n as ih =>
    show textsNode n ++ textsList (as ++ b) = (textsNode n ++ textsList as) ++ textsList b
    rw [ih, List.append_assoc]

theorem skelList_append (a b : List HNode) :
    skelList (a ++ b) = skelList a ++ skelList b := by
  induction a with
  | nil => rfl
  | cons n as ih =>
    show skelNode n ++ skelList (as ++ b) = (skelNode n ++ skelList as) ++ skelList b
    rw [ih, List.append_assoc]

theorem sizeList_append (a b : List HNode) :
    sizeList (a ++ b) = sizeList a + sizeList b := by
  induction a with
  | nil =>
    rw [List.nil_append]
    show sizeList b = 0 + sizeList b
    rw [Nat.zero_add]
  | cons n as ih =>
    show sizeNode n + sizeList (as ++ b) = (sizeNode n + sizeList as) + sizeList b
    rw [ih]
    omega

theorem textsList_map_text (ws : List (List Char)) :
    textsList (ws.map HNode.text) = ws := by
  induction ws with
  | nil => rfl
  | cons w rest ih =>
    show textsNode (.text w) ++ textsList (rest.map HNode.text) = w :: rest
    rw [ih]
    rfl

theorem skelList_map_text (ws : List (List Char)) (l : List HNode) :
    skelList (ws.map HNode.text ++ l) = skelList l := by
  induction ws with
  | nil => rfl
  | cons w rest ih =>
    show skelNode (.text w) ++ skelList (rest.map HNode.text ++ l) = skelList l
    rw [ih]
    rfl

theorem sizeList_map_text (ws : List (List Char)) (l : List HNode) :
    sizeList (ws.map HNode.text ++ l) = ws.length + sizeList l := by
  induction ws with
  | nil =>
    rw [List.map_nil, List.nil_append]
    show sizeList l = 0 + sizeList l
    rw [Nat.zero_add]
  | cons w rest ih =>
    show sizeNode (.text w) + sizeList (rest.map HNode.text ++ l) = (rest.length + 1) + sizeList l
    rw [ih]
    show 1 + _ = _
    omega

theorem sizeNode_pos (n : HNode) : 0 < sizeNode n := by
  cases n with
  | text s => exact Nat.one_pos
  | elem name attrs cs => show 0 < 1 + sizeList cs; omega

theorem sizeList_eq_zero (f : List HNode) (h : sizeList f = 0) : f = [] := by
  cases f with
  | nil => rfl
  | cons n rest =>
    exfalso
    have hp := sizeNode_pos n
    have : sizeNode n + sizeList rest = 0 := h
    omega

theorem brAfter_some (l : List HNode) (r : List HNode) (h : brAfter l = some r) :
    ∃ ws : List (List Char), l = ws.map HNode.text ++ r ∧ ∀ w ∈ ws, pyStrip w = [] := by
  induction l with
  | nil => exact absurd h (by simp [brAfter])
  | cons n rest ih =>
    cases n with
    | text s =>
      rw [brAfter] at h
      by_cases hs : pyStrip s = []
      · rw [if_pos hs] at h
        obtain ⟨ws, hl, hws⟩ := ih h
        refine ⟨s :: ws, ?_, ?_⟩
        · rw [List.map_cons, List.cons_append, hl]
        · intro w hw
          rcases List.mem_cons.mp hw with rfl | hw
          · exact hs
          · exact hws w hw
      · rw [if_neg hs] at h
        exact absurd h (by simp)
    | elem name attrs cs =>
      rw [brAfter] at h
      by_cases hn : name = "br".toList
      · rw [if_pos hn] at h
        refine ⟨[], ?_, ?_⟩
        · rw [List.map_nil, List.nil_append]
          exact Option.some.injEq _ _ ▸ h
        · intro w hw
          exact absurd hw (List.not_mem_nil w)
      · rw [if_neg hn] at h
        exact absurd h (by simp)

theorem matchAfter_some (mc : Nat) (l : List HNode) (t : List Char)
    (r : List HNode) (h : matchAfter mc l = some (t, r)) :
    ∃ ws1 ws2 : List (List Char),
      l = ws1.map HNode.text ++ HNode.text t :: (ws2.map HNode.text ++ r) ∧
      (∀ w ∈ ws1, pyStrip w = []) ∧ (∀ w ∈ ws2, pyStrip w = []) ∧
      pyStrip t ≠ [] ∧ (pyStrip t).length ≤ mc := by
  induction l with
  | nil => exact absurd h (by simp [matchAfter])
  | cons n rest ih =>
    cases n with
    | text s =>
      rw [matchAfter] at h
      by_cases hs : pyStrip s = []
      · rw [if_pos hs] at h
        obtain ⟨ws1, ws2, hl, h1, h2, hne, hle⟩ := ih h
        refine ⟨s :: ws1, ws2, ?_, ?_, h2, hne, hle⟩
        · rw [List.map_cons, List.cons_append, hl]
        · intro w hw
          rcases List.mem_cons.mp hw with rfl | hw
          · exact hs
          · exact h1 w hw
      · rw [if_neg hs] at h
        by_cases hle : (pyStrip s).length ≤ mc
        · rw [if_pos hle] at h
          cases hbr : brAfter rest with
          | none => rw [hbr] at h; exact absurd h (by simp)
          | some r0 =>
            rw [hbr] at h
            simp only [Option.some.injEq, Prod.mk.injEq] at h
            obtain ⟨rfl, rfl⟩ := h
            obtain ⟨ws, hrest, hws⟩ := brAfter_some rest r0 hbr
            exact ⟨[], ws, by rw [List.map_nil, List.nil_append, hrest],
              fun w hw => absurd hw (List.not_mem_nil w), hws, hs, hle⟩
        · rw [if_neg hle] at h
          exact absurd h (by simp)
    | elem name attrs cs =>
      rw [matchAfter] at h
      exact absurd h (by simp)

theorem textsList_cons (n : HNode) (l : List HNode) :
    textsList (n :: l) = textsNode n ++ textsList l := rfl

theorem skelList_cons (n : HNode) (l : List HNode) :
    skelList (n :: l) = skelNode n ++ skelList l := rfl

theorem sizeList_cons (n : HNode) (l : List HNode) :
    sizeList (n :: l) = sizeNode n + sizeList l := rfl

theorem sizeNode_elem (n : List Char) (a : List (List Char × List Char)) (cs : List HNode) :
    sizeNode (.elem n a cs) = 1 + sizeList cs := rfl

theorem textsNode_elem (n : List Char) (a : List (List Char × List Char)) (cs : List HNode) :
    textsNode (.elem n a cs) = textsList cs := rfl

theorem skelNode_elem (n : List Char) (a : List (List Char × List Char)) (cs : List HNode) :
    skelNode (.elem n a cs) = [.elem n a (skelList cs)] := rfl

theorem skelList_cons_text (s : List Char) (l : List HNode) :
    skelList (.text s :: l) = skelList l := rfl

theorem textsList_cons_text (s : List Char) (l : List HNode) :
    textsList (.text s :: l) = s :: textsList l := rfl

theorem sizeList_cons_text (s : List Char) (l : List HNode) :
    sizeList (.text s :: l) = 1 + sizeList l := rfl

theorem flankedList_cons_text (mc : Nat) (s : List Char) (l : List HNode) :
    flankedList mc (.text s :: l) = flankedList mc l := rfl

theorem flankedList_cons_elem (mc : Nat) (n : List Char)
    (a : List (List Char × List Char)) (cs : List HNode) (l : List HNode) :
    flankedList mc (.elem n a cs :: l) =
      (if n = "br".toList then
        match matchAfter mc l with
        | some (t, _) => [t]
        | none => []
       else []) ++ flankedList mc cs ++ flankedList mc l := rfl

/-- What one successful rewrite of the noise stripper does to a fragment:
the element skeleton is unchanged, the node count strictly drops, and the
document-order text sequence loses exactly one contiguous group — some
whitespace-only strings around one non-whitespace text `t` of trimmed
length at most `maxChars` — where `t` sits in a removable position
(directly after a `<br>`, matched by the `<br> ws* t ws* <br>` pattern). -/
def StepFact (mc : Nat) (f f' : List HNode) : Prop :=
  skelList f' = skelList f ∧ sizeList f' < sizeList f ∧
  ∃ (A : List (List Char)) (ws1 : List (List Char)) (t : List Char)
    (ws2 : List (List Char)) (B : List (List Char)),
    textsList f = A ++ (ws1 ++ (t :: (ws2 ++ B))) ∧
    textsList f' = A ++ B ∧
    (∀ w ∈ ws1, pyStrip w = []) ∧ (∀ w ∈ ws2, pyStrip w = []) ∧
    pyStrip t ≠ [] ∧ (pyStrip t).length ≤ mc ∧
    t ∈ flankedList mc f

theorem stepList_spec_aux : ∀ (k mc : Nat) (f f' : List HNode),
    sizeList f ≤ k → stepList mc f = some f' → StepFact mc f f' := by
  intro k
  induction k with
  | zero =>
    intro mc f f' hk h
    rw [sizeList_eq_zero f (Nat.le_zero.mp hk)] at h
    exact absurd h (by simp [stepList])
  | succ k ih =>
    intro mc f f' hk h
    cases f with
    | nil => exact absurd h (by simp [stepList])
    | cons n rest =>
      cases n with
      | text s =>
        rw [stepList] at h
        cases hr : stepList mc rest with
        | none => rw [hr] at h; exact absurd h (by simp)
        | some r2 =>
          rw [hr] at h
          simp only [Option.some.injEq] at h
          subst h
          have hk2 : sizeList rest ≤ k := by
            rw [sizeList_cons_text] at hk; omega
          obtain ⟨hskel, hsize, A, ws1, t, ws2, B, hT, hT2, hw1, hw2, hne, hle, hfl⟩ :=
            ih mc rest r2 hk2 hr
          refine ⟨?_, ?_, s :: A, ws1, t, ws2, B, ?_, ?_, hw1, hw2, hne, hle, ?_⟩
          · rw [skelList_cons_text, skelList_cons_text, hskel]
          · rw [sizeList_cons_text, sizeList_cons_text]; omega
          · rw [textsList_cons_text, hT, List.cons_append]
          · rw [textsList_cons_text, hT2, List.cons_append]
          · rw [flankedList_cons_text]; exact hfl
      | elem name attrs cs =>
        rw [stepList] at h
        have hkc : sizeList cs ≤ k := by
          rw [sizeList_cons, sizeNode_elem] at hk; omega
        have hkr : sizeList rest ≤ k := by
          rw [sizeList_cons, sizeNode_elem] at hk; omega
        by_cases hbr : name = "br".toList
        · subst hbr
          rw [if_pos rfl] at h
          cases hm : matchAfter mc rest with
          | some tr =>
            obtain ⟨t0, r⟩ := tr
            rw [hm] at h
            simp only [Option.some.injEq] at h
            subst h
            obtain ⟨ws1, ws2, hrest, hw1, hw2, hne, hle⟩ := matchAfter_some mc rest t0 r hm
            refine ⟨?_, ?_, textsList cs, ws1, t0, ws2, textsList r, ?_, ?_,
              hw1, hw2, hne, hle, ?_⟩
            · rw [skelList_cons, skelList_cons, hrest, skelList_map_text,
                skelList_cons_text, skelList_map_text]
            · rw [sizeList_cons, sizeList_cons, hrest, sizeList_map_text,
                sizeList_cons_text, sizeList_map_text]
              omega
            · rw [textsList_cons, textsNode_elem, hrest, textsList_append,
                textsList_map_text, textsList_cons_text, textsList_append,
                textsList_map_text]
            · rw [textsList_cons, textsNode_elem]
            · rw [flankedList_cons_elem, if_pos rfl, hm]
              exact List.mem_append.mpr (Or.inl (List.mem_append.mpr
                (Or.inl (List.mem_singleton.mpr rfl))))
          | none =>
            rw [hm] at h
            cases hc : stepList mc cs with
            | some cs2 =>
              have hn2 : stepNode mc (.elem "br".toList attrs cs)
                  = some (.elem "br".toList attrs cs2) := by rw [stepNode, hc]
              rw [hn2] at h
              simp only [Option.some.injEq] at h
              subst h
              obtain ⟨hskel, hsize, A, ws1, t, ws2, B, hT, hT2, hw1, hw2, hne, hle, hfl⟩ :=
                ih mc cs cs2 hkc hc
              refine ⟨?_, ?_, A, ws1, t, ws2, B ++ textsList rest, ?_, ?_,
                hw1, hw2, hne, hle, ?_⟩
              · rw [skelList_cons, skelList_cons, skelNode_elem, skelNode_elem, hskel]
              · rw [sizeList_cons, sizeList_cons, sizeNode_elem, sizeNode_elem]; omega
              · rw [textsList_cons, textsNode_elem, hT]
                simp only [List.append_assoc, List.cons_append]
              · rw [textsList_cons, textsNode_elem, hT2]
                rw [List.append_assoc]
              · rw [flankedList_cons_elem, if_pos rfl, hm]
                exact List.mem_append.mpr (Or.inl (List.mem_append.mpr (Or.inr hfl)))
            | none =>
              have hn2 : stepNode mc (.elem "br".toList attrs cs) = none := by
                rw [stepNode, hc]
              rw [hn2] at h
              cases hrst : stepList mc rest with
              | none => rw [hrst] at h; exact absurd h (by simp)
              | some r2 =>
                rw [hrst] at h
                simp only [Option.some.injEq] at h
                subst h
                obtain ⟨hskel, hsize, A, ws1, t, ws2, B, hT, hT2, hw1, hw2, hne, hle, hfl⟩ :=
                  ih mc rest r2 hkr hrst
                refine ⟨?_, ?_, textsList cs ++ A, ws1, t, ws2, B, ?_, ?_,
                  hw1, hw2, hne, hle, ?_⟩
                · rw [skelList_cons, skelList_cons, hskel]
                · rw [sizeList_cons, sizeList_cons]; omega
                · rw [textsList_cons, textsNode_elem, hT, List.append_assoc]
                · rw [textsList_cons, textsNode_elem, hT2, List.append_assoc]
                · rw [flankedList_cons_elem, if_pos rfl, hm]
                  exact List.mem_append.mpr (Or.inr hfl)
        · rw [if_neg hbr] at h
          cases hc : stepList mc cs with
          | some cs2 =>
            have hn2 : stepNode mc (.elem name attrs cs)
                = some (.elem name attrs cs2) := by rw [stepNode, hc]
            rw [hn2] at h
            simp only [Option.some.injEq] at h
            subst h
            obtain ⟨hskel, hsize, A, ws1, t, ws2, B, hT, hT2, hw1, hw2, hne, hle, hfl⟩ :=
              ih mc cs cs2 hkc hc
            refine ⟨?_, ?_, A, ws1, t, ws2, B ++ textsList rest, ?_, ?_,
              hw1, hw2, hne, hle, ?_⟩
            · rw [skelList_cons, skelList_cons, skelNode_elem, skelNode_elem, hskel]
            · rw [sizeList_cons, sizeList_cons, sizeNode_elem, sizeNode_elem]; omega
            · rw [textsList_cons, textsNode_elem, hT]
              simp only [List.append_assoc, List.cons_append]
            · rw [textsList_cons, textsNode_elem, hT2]
              rw [List.append_assoc]
            · rw [flankedList_cons_elem, if_neg hbr]
              exact List.mem_append.mpr (Or.inl (List.mem_append.mpr (Or.inr hfl)))
          | none =>
            have hn2 : stepNode mc (.elem name attrs cs) = none := by
              rw [stepNode, hc]
            rw [hn2] at h
            cases hrst : stepList mc rest with
            | none => rw [hrst] at h; exact absurd h (by simp)
            | some r2 =>
              rw [hrst] at h
              simp only [Option.some.injEq] at h
              subst h
              obtain ⟨hskel, hsize, A, ws1, t, ws2, B, hT, hT2, hw1, hw2, hne, hle, hfl⟩ :=
                ih mc rest r2 hkr hrst
              refine ⟨?_, ?_, textsList cs ++ A, ws1, t, ws2, B, ?_, ?_,
                hw1, hw2, hne, hle, ?_⟩
              · rw [skelList_cons, skelList_cons, hskel]
              · rw [sizeList_cons, sizeList_cons]; omega
              · rw [textsList_cons, textsNode_elem, hT, List.append_assoc]
              · rw [textsList_cons, textsNode_elem, hT2, List.append_assoc]
              · rw [flankedList_cons_elem, if_neg hbr]
                exact List.mem_append.mpr (Or.inr hfl)

theorem stripIter_skel (mc : Nat) : ∀ (fuel : Nat) (f : List HNode),
    skelList (stripIter mc fuel f) = skelList f := by
  intro fuel
  induction fuel with
  | zero => intro f; rfl
  | succ fuel ih =>
    intro f
    rw [stripIter]
    cases hs : stepList mc f with
    | none => rfl
    | some f2 =>
      show skelList (stripIter mc fuel f2) = skelList f
      rw [ih f2, (stepList_spec_aux (sizeList f) mc f f2 (Nat.le_refl _) hs).1]

theorem stripIter_texts_big (mc : Nat) : ∀ (fuel : Nat) (f : List HNode) (s : List Char),
    mc < (pyStrip s).length → s ∈ textsList f → s ∈ textsList (stripIter mc fuel f) := by
  intro fuel
  induction fuel with
  | zero => intro f s _ hmem; exact hmem
  | succ fuel ih =>
    intro f s hbig hmem
    rw [stripIter]
    cases hs : stepList mc f with
    | none => exact hmem
    | some f2 =>
      show s ∈ textsList (stripIter mc fuel f2)
      obtain ⟨_, _, A, ws1, t, ws2, B, hT, hT2, hw1, hw2, _, hle, _⟩ :=
        stepList_spec_aux (sizeList f) mc f f2 (Nat.le_refl _) hs
      rw [hT] at hmem
      refine ih f2 s hbig ?_
      rw [hT2]
      rcases List.mem_append.mp hmem with hA | hrest
      · exact List.mem_append.mpr (Or.inl hA)
      rcases List.mem_append.mp hrest with hws1 | hcons
      · rw [hw1 s hws1] at hbig; simp at hbig
      rcases List.mem_cons.mp hcons with rfl | h2
      · omega
      rcases List.mem_append.mp h2 with hws2 | hB
      · rw [hw2 s hws2] at hbig; simp at hbig
      · exact List.mem_append.mpr (Or.inr hB)

theorem stripIter_fix (mc : Nat) : ∀ (fuel : Nat) (f : List HNode),
    sizeList f ≤ fuel → stepList mc (stripIter mc fuel f) = none := by
  intro fuel
  induction fuel with
  | zero =>
    intro f hf
    rw [sizeList_eq_zero f (Nat.le_zero.mp hf)]
    rfl
  | succ fuel ih =>
    intro f hf
    rw [stripIter]
    cases hs : stepList mc f with
    | none => exact hs
    | some f2 =>
      show stepList mc (stripIter mc fuel f2) = none
      have hlt := (stepList_spec_aux (sizeList f) mc f f2 (Nat.le_refl _) hs).2.1
      exact ih f2 (by omega)

/-- A bare `<br>` element. -/
def brE : HNode := .elem "br".toList [] []

/-- C7: the noise stripper at threshold 200 collapses `<br>Patreon<br>` to
`<br><br>`, leaves a 250-character line between two `<br>`s unmodified,
leaves `<br><p>text</p><br>` unmodified; and in general every single rewrite
preserves the element skeleton and removes exactly one non-whitespace text
of trimmed length at most the threshold sitting in the `<br> ws* t ws* <br>`
pattern (plus surrounding whitespace-only strings); texts whose trimmed
length exceeds the threshold always survive the whole pass, the element
skeleton is preserved by the whole pass, and the pass stops only when no
further match exists. -/
theorem strip_single_line_spec :
    (stripBrs 200 [brE, .text "Patreon".toList, brE] = [brE, brE]) ∧
    (stripBrs 200 [brE, .text (List.replicate 250 'a'), brE]
      = [brE, .text (List.replicate 250 'a'), brE]) ∧
    (stripBrs 200 [brE, .elem "p".toList [] [.text "text".toList], brE]
      = [brE, .elem "p".toList [] [.text "text".toList], brE]) ∧
    (∀ (mc : Nat) (f f' : List HNode), stepList mc f = some f' → StepFact mc f f') ∧
    (∀ (mc : Nat) (f : List HNode) (s : List Char), mc < (pyStrip s).length →
      s ∈ textsList f → s ∈ textsList (stripBrs mc f)) ∧
    (∀ (mc : Nat) (f : List HNode), skelList (stripBrs mc f) = skelList f) ∧
    (∀ (mc : Nat) (f : List HNode), stepList mc (stripBrs mc f) = none) := by
  refine ⟨rfl, rfl, rfl, ?_, ?_, ?_, ?_⟩
  · exact fun mc f f' h => stepList_spec_aux (sizeList f) mc f f' (Nat.le_refl _) h
  · exact fun mc f s hbig hmem => stripIter_texts_big mc (sizeList f) f s hbig hmem
  · exact fun mc f => stripIter_skel mc (sizeList f) f
  · exact fun mc f => stripIter_fix mc (sizeList f) f (Nat.le_refl _)

/-- Witness for C7: the step characterization holds at the Patreon rewrite,
and the 250-character text survives the whole pass. -/
theorem strip_single_line_spec_witness :
    (stepList 200 [brE, .text "Patreon".toList, brE] = some [brE, brE] ∧
      StepFact 200 [brE, .text "Patreon".toList, brE] [brE, brE]) ∧
    (200 < (pyStrip (List.replicate 250 'a')).length ∧
      List.replicate 250 'a' ∈
        textsList (stripBrs 200 [brE, .text (List.replicate 250 'a'), brE])) :=
  ⟨⟨rfl, strip_single_line_spec.2.2.2.1 200 _ _ rfl⟩,
   ⟨by decide,
    strip_single_line_spec.2.2.2.2.1 200 [brE, .text (List.replicate 250 'a'), brE]
      (List.replicate 250 'a') (by decide) (by decide)⟩⟩

/-! ## Fragment sanitizer (sanitize_fragment_html) -/

/-- `_ALLOWED_TAGS`. -/
def allowedTags : List (List Char) :=
  (["p", "br", "em", "i", "strong", "b", "hr", "blockquote",
    "ul", "ol", "li", "h2", "h3", "h4", "pre", "code", "span"] :
    List String).map String.toList

/-- The tags mapped to the attribute set containing `class` in
`_ALLOWED_ATTRS` (the remaining allowed tags map to the empty set). -/
def classAttrTags : List (List Char) :=
  (["span", "p", "blockquote", "hr", "pre", "code",
    "ul", "ol", "li", "h2", "h3", "h4"] : List String).map String.toList

/-- `_ALLOWED_ATTRS.get(tag.name, set())`. -/
def allowedAttrsFor (name : List Char) : List (List Char) :=
  if name ∈ classAttrTags then ["class".toList] else []

mutual

/-- `frag.find_all(["script", "style"])` + `decompose()`: a script or style
element is dropped with its whole subtree; everything else is kept with its
descendants processed. -/
def rmScriptNode : HNode → List HNode
  | .text s => [.text s]
  | .elem name attrs cs =>
    if name = "script".toList ∨ name = "style".toList then []
    else [.elem name attrs (rmScriptList cs)]

def rmScriptList : List HNode → List HNode
  | [] => []
  | n :: rest => rmScriptNode n ++ rmScriptList rest

end

mutual

/-- The allow-list pass: a tag outside `_ALLOWED_TAGS` is unwrapped (its
processed children spliced in its place); an allowed tag keeps only the
attributes in its allow-set. -/
def sanTagsNode : HNode → List HNode
  | .text s => [.text s]
  | .elem name attrs cs =>
    if name ∈ allowedTags then
      [.elem name (attrs.filter (fun kv => kv.1 ∈ allowedAttrsFor name)) (sanTagsList cs)]
    else sanTagsList cs

def sanTagsList : List HNode → List HNode
  | [] => []
  | n :: rest => sanTagsNode n ++ sanTagsList rest

end

/-- Every attribute key of the list is in the tag's allow-set. -/
def attrsOk (name : List Char) (attrs : List (List Char × List Char)) : Bool :=
  attrs.all (fun kv => decide (kv.1 ∈ allowedAttrsFor name))

mutual

/-- The tree-shaped safety invariant: every element bears an allowed tag and
only attributes from that tag's allow-set. -/
def allowedNode : HNode → Bool
  | .text _ => true
  | .elem name attrs cs =>
    decide (name ∈ allowedTags) && attrsOk name attrs && allowedList cs

def allowedList : List HNode → Bool
  | [] => true
  | n :: rest => allowedNode n && allowedList rest

end

/-- BeautifulSoup's minimal output formatter on text: `&`, `<`, `>` become
entities. -/
def escMinChar (c : Char) : List Char :=
  if c = '&' then "&amp;".toList
  else if c = '<' then "&lt;".toList
  else if c = '>' then "&gt;".toList
  else [c]

def escMin : List Char → List Char
  | [] => []
  | c :: rest => escMinChar c ++ escMin rest

/-- Attribute values are double-quoted, so `"` is escaped as well. -/
def escAttrChar (c : Char) : List Char :=
  if c = '&' then "&amp;".toList
  else if c = '<' then "&lt;".toList
  else if c = '>' then "&gt;".toList
  else if c = '"' then "&quot;".toList
  else [c]

def escAttr : List Char → List Char
  | [] => []
  | c :: rest => escAttrChar c ++ escAttr rest

/-- ` key="value"` for each attribute, in order. -/
def attrsStr : List (List Char × List Char) → List Char
  | [] => []
  | (k, v) :: rest => ' ' :: (k ++ '=' :: '"' :: (escAttr v ++ '"' :: attrsStr rest))

/-- The html.parser void elements, rendered as `<name/>`. -/
def voidTags : List (List Char) :=
  (["area", "base", "br", "col", "embed", "hr", "img", "input",
    "link", "meta", "source", "track", "wbr"] : List String).map String.toList

mutual

/-- `decode_contents()`: serialize a node back to markup. -/
def serializeNode : HNode → List Char
  | .text s => escMin s
  | .elem name attrs cs =>
    if name ∈ voidTags then
      '<' :: (name ++ attrsStr attrs ++ "/>".toList)
    else
      ('<' :: (name ++ attrsStr attrs ++ ['>'])) ++
        (serializeList cs ++ ('<' :: '/' :: (name ++ ['>'])))

def serializeList : List HNode → List Char
  | [] => []
  | n :: rest => serializeNode n ++ serializeList rest

end

/-- The tree pipeline of `sanitize_fragment_html`: drop script/style,
enforce the allow-lists, apply the DOM bracket bolding, strip single-line
noise between brs at threshold 200. -/
def sanitizeTree (f : List HNode) : List HNode :=
  stripBrs 200 (applyBoldList (sanTagsList (rmScriptList f)))

/-- `sanitize_fragment_html` end to end, from the parsed fragment to the
serialized output string. -/
def sanitizeFragment (f : List HNode) : List Char :=
  serializeList (sanitizeTree f)

theorem allowedList_append (a b : List HNode) :
    allowedList (a ++ b) = (allowedList a && allowedList b) := by
  induction a with
  | nil =>
    show allowedList b = (true && allowedList b)
    rw [Bool.true_and]
  | cons n as ih =>
    show (allowedNode n && allowedList (as ++ b)) = ((allowedNode n && allowedList as) && allowedList b)
    rw [ih, Bool.and_assoc]

mutual

theorem sanTagsNode_allowed : ∀ (n : HNode), allowedList (sanTagsNode n) = true
  | .text s => rfl
  | .elem name attrs cs => by
    unfold sanTagsNode
    by_cases h : name ∈ allowedTags
    · rw [if_pos h]
      have h1 : attrsOk name (attrs.filter (fun kv => kv.1 ∈ allowedAttrsFor name)) = true := by
        unfold attrsOk
        rw [List.all_eq_true]
        intro kv hkv
        exact (List.mem_filter.mp hkv).2
      show ((decide (name ∈ allowedTags) && attrsOk name _ &&
        allowedList (sanTagsList cs)) && allowedList []) = true
      rw [sanTagsList_allowed cs, h1, decide_eq_true h]
      rfl
    · rw [if_neg h]
      exact sanTagsList_allowed cs

theorem sanTagsList_allowed : ∀ (l : List HNode), allowedList (sanTagsList l) = true
  | [] => rfl
  | n :: rest => by
    show allowedList (sanTagsNode n ++ sanTagsList rest) = true
    rw [allowedList_append, sanTagsNode_allowed n, sanTagsList_allowed rest]
    rfl

end

theorem boldSegNodes_allowed (segs : List (Bool × List Char)) :
    allowedList (boldSegNodes segs) = true := by
  induction segs with
  | nil => rfl
  | cons seg rest ih =>
    show (allowedNode (if seg.1 then _ else _) && allowedList (boldSegNodes rest)) = true
    rw [ih, Bool.and_true]
    cases hb : seg.1 with
    | false => rfl
    | true => rfl

theorem boldTextNode_allowed (s : List Char) : allowedList (boldTextNode s) = true := by
  unfold boldTextNode
  by_cases h : s.any isBracketChar = false
  · rw [if_pos h]; rfl
  · rw [if_neg h]
    split
    · rfl
    · exact boldSegNodes_allowed _

mutual

theorem applyBoldNode_allowed : ∀ (n : HNode), allowedNode n = true →
    allowedList (applyBoldNode n) = true
  | .text s, _ => boldTextNode_allowed s
  | .elem name attrs cs, h => by
    unfold allowedNode at h
    rw [Bool.and_eq_true, Bool.and_eq_true] at h
    obtain ⟨⟨h1, h2⟩, h3⟩ := h
    show ((decide (name ∈ allowedTags) && attrsOk name attrs &&
      allowedList (applyBoldList cs)) && true) = true
    rw [h1, h2, applyBoldList_allowed cs h3]
    rfl

theorem applyBoldList_allowed : ∀ (l : List HNode), allowedList l = true →
    allowedList (applyBoldList l) = true
  | [], _ => rfl
  | n :: rest, h => by
    unfold allowedList at h
    rw [Bool.and_eq_true] at h
    show allowedList (applyBoldNode n ++ applyBoldList rest) = true
    rw [allowedList_append, applyBoldNode_allowed n h.1, applyBoldList_allowed rest h.2]
    rfl

end

mutual

theorem allowedNode_skel : ∀ (n : HNode), allowedList (skelNode n) = allowedNode n
  | .text s => rfl
  | .elem name attrs cs => by
    show (allowedNode (.elem name attrs (skelList cs)) && true) = allowedNode (.elem name attrs cs)
    rw [Bool.and_true]
    show (decide (name ∈ allowedTags) && attrsOk name attrs && allowedList (skelList cs))
      = (decide (name ∈ allowedTags) && attrsOk name attrs && allowedList cs)
    rw [allowedList_skel cs]

theorem allowedList_skel : ∀ (l : List HNode), allowedList (skelList l) = allowedList l
  | [] => rfl
  | n :: rest => by
    show allowedList (skelNode n ++ skelList rest) = (allowedNode n && allowedList rest)
    rw [allowedList_append, allowedNode_skel n, allowedList_skel rest]

end

theorem stripBrs_allowed (mc : Nat) (f : List HNode) (h : allowedList f = true) :
    allowedList (stripBrs mc f) = true := by
  have hs : skelList (stripBrs mc f) = skelList f := stripIter_skel mc (sizeList f) f
  calc allowedList (stripBrs mc f)
      = allowedList (skelList (stripBrs mc f)) := (allowedList_skel _).symm
    _ = allowedList (skelList f) := by rw [hs]
    _ = allowedList f := allowedList_skel f
    _ = true := h

theorem sanitizeTree_allowed (f : List HNode) : allowedList (sanitizeTree f) = true :=
  stripBrs_allowed 200 _ (applyBoldList_allowed _ (sanTagsList_allowed (rmScriptList f)))

/-- Every `<` in the string opens an allowed tag: whatever follows it is an
allowed tag name (as opening or closing tag), possibly continued. -/
def TagOk (s : List Char) : Prop :=
  ∃ t ∈ allowedTags, ∃ u, s = t ++ u ∨ s = '/' :: (t ++ u)

def LtOk (l : List Char) : Prop :=
  ∀ x y, l = x ++ '<' :: y → TagOk y

theorem ltOk_of_no_lt (l : List Char) (h : ∀ c ∈ l, c ≠ '<') : LtOk l := by
  intro x y hxy
  have m : '<' ∈ l := by
    rw [hxy]
    exact List.mem_append.mpr (Or.inr (List.mem_cons_self _ _))
  exact absurd rfl (h '<' m)

theorem ltOk_append (a b : List Char) (ha : LtOk a) (hb : LtOk b) : LtOk (a ++ b) := by
  intro x y hxy
  rcases List.append_eq_append_iff.mp hxy with ⟨w, hx, hbw⟩ | ⟨w, haw, hw⟩
  · exact hb w y hbw
  · cases w with
    | nil =>
      rw [List.nil_append] at hw
      exact hb [] y (by rw [List.nil_append]; exact hw.symm)
    | cons c w2 =>
      rw [List.cons_append] at hw
      injection hw with h1 h2
      subst h1
      obtain ⟨t, hmem, u, hu⟩ := ha x w2 haw
      subst h2
      rcases hu with h | h
      · exact ⟨t, hmem, u ++ b, Or.inl (by rw [h, List.append_assoc])⟩
      · exact ⟨t, hmem, u ++ b,
          Or.inr (by rw [h, List.cons_append, List.append_assoc])⟩

theorem ltOk_lt_cons (rest : List Char) (hr : ∀ c ∈ rest, c ≠ '<')
    (ht : TagOk rest) : LtOk ('<' :: rest) := by
  intro x y hxy
  cases x with
  | nil =>
    rw [List.nil_append] at hxy
    injection hxy with h1 h2
    exact h2 ▸ ht
  | cons c x2 =>
    rw [List.cons_append] at hxy
    injection hxy with h1 h2
    refine absurd rfl (hr '<' ?_)
    rw [h2]
    exact List.mem_append.mpr (Or.inr (List.mem_cons_self _ _))

theorem escMinChar_no_lt (c : Char) : ∀ d ∈ escMinChar c, d ≠ '<' := by
  unfold escMinChar
  by_cases h1 : c = '&'
  · rw [if_pos h1]; decide
  · rw [if_neg h1]
    by_cases h2 : c = '<'
    · rw [if_pos h2]; decide
    · rw [if_neg h2]
      by_cases h3 : c = '>'
      · rw [if_pos h3]; decide
      · rw [if_neg h3]
        intro d hd
        have hdc := List.mem_singleton.mp hd
        subst hdc
        exact h2

theorem escMin_no_lt (s : List Char) : ∀ d ∈ escMin s, d ≠ '<' := by
  induction s with
  | nil => intro d hd; exact absurd hd (List.not_mem_nil d)
  | cons c rest ih =>
    intro d hd
    rcases List.mem_append.mp hd with h1 | h2
    · exact escMinChar_no_lt c d h1
    · exact ih d h2

theorem escAttrChar_no_lt (c : Char) : ∀ d ∈ escAttrChar c, d ≠ '<' := by
  unfold escAttrChar
  by_cases h1 : c = '&'
  · rw [if_pos h1]; decide
  · rw [if_neg h1]
    by_cases h2 : c = '<'
    · rw [if_pos h2]; decide
    · rw [if_neg h2]
      by_cases h3 : c = '>'
      · rw [if_pos h3]; decide
      · rw [if_neg h3]
        by_cases h4 : c = '"'
        · rw [if_pos h4]; decide
        · rw [if_neg h4]
          intro d hd
          have hdc := List.mem_singleton.mp hd
          subst hdc
          exact h2

theorem escAttr_no_lt (s : List Char) : ∀ d ∈ escAttr s, d ≠ '<' := by
  induction s with
  | nil => intro d hd; exact absurd hd (List.not_mem_nil d)
  | cons c rest ih =>
    intro d hd
    rcases List.mem_append.mp hd with h1 | h2
    · exact escAttrChar_no_lt c d h1
    · exact ih d h2

theorem allowedTags_no_lt : ∀ t ∈ allowedTags, ∀ c ∈ t, c ≠ '<' := by decide

theorem allowedAttrsFor_no_lt (name : List Char) :
    ∀ k ∈ allowedAttrsFor name, ∀ c ∈ k, c ≠ '<' := by
  intro k hk
  unfold allowedAttrsFor at hk
  by_cases h : name ∈ classAttrTags
  · rw [if_pos h] at hk
    have hkc := List.mem_singleton.mp hk
    subst hkc
    decide
  · rw [if_neg h] at hk
    exact absurd hk (List.not_mem_nil k)

theorem attrsStr_no_lt (name : List Char) (attrs : List (List Char × List Char)) :
    attrsOk name attrs = true → ∀ c ∈ attrsStr attrs, c ≠ '<' := by
  induction attrs with
  | nil => intro _ c hc; exact absurd hc (List.not_mem_nil c)
  | cons kv rest ih =>
    intro h c hc
    have hsplit : decide (kv.1 ∈ allowedAttrsFor name) = true ∧ attrsOk name rest = true := by
      unfold attrsOk at h ⊢
      rw [List.all_cons, Bool.and_eq_true] at h
      exact h
    obtain ⟨hk, hrest⟩ := hsplit
    obtain ⟨k, v⟩ := kv
    rcases List.mem_cons.mp hc with rfl | hc2
    · decide
    rcases List.mem_append.mp hc2 with hck | hc3
    · exact allowedAttrsFor_no_lt name k (of_decide_eq_true hk) c hck
    rcases List.mem_cons.mp hc3 with rfl | hc4
    · decide
    rcases List.mem_cons.mp hc4 with rfl | hc5
    · decide
    rcases List.mem_append.mp hc5 with hcv | hc6
    · exact escAttr_no_lt v c hcv
    rcases List.mem_cons.mp hc6 with rfl | hc7
    · decide
    · exact ih hrest c hc7

theorem serializeList_ltOk_aux : ∀ (k : Nat) (l : List HNode), sizeList l ≤ k →
    allowedList l = true → LtOk (serializeList l) := by
  intro k
  induction k with
  | zero =>
    intro l hk _
    rw [sizeList_eq_zero l (Nat.le_zero.mp hk)]
    intro x y hxy
    have hco : ([] : List Char) = x ++ '<' :: y := hxy
    exact absurd hco.symm (by simp)
  | succ k ih =>
    intro l hk hal
    cases l with
    | nil =>
      intro x y hxy
      have hco : ([] : List Char) = x ++ '<' :: y := hxy
      exact absurd hco.symm (by simp)
    | cons n rest =>
      have hkr : sizeList rest ≤ k := by
        rw [sizeList_cons] at hk
        have := sizeNode_pos n
        omega
      unfold allowedList at hal
      rw [Bool.and_eq_true] at hal
      obtain ⟨han, hal2⟩ := hal
      have hrest := ih rest hkr hal2
      show LtOk (serializeNode n ++ serializeList rest)
      refine ltOk_append _ _ ?_ hrest
      cases n with
      | text s => exact ltOk_of_no_lt _ (escMin_no_lt s)
      | elem name attrs cs =>
        unfold allowedNode at han
        rw [Bool.and_eq_true, Bool.and_eq_true] at han
        obtain ⟨⟨hname, hattrs⟩, hcs⟩ := han
        have hnamemem : name ∈ allowedTags := of_decide_eq_true hname
        have hname_nolt : ∀ c ∈ name, c ≠ '<' := allowedTags_no_lt name hnamemem
        have hattr_nolt : ∀ c ∈ attrsStr attrs, c ≠ '<' := attrsStr_no_lt name attrs hattrs
        have hkc : sizeList cs ≤ k := by
          rw [sizeList_cons, sizeNode_elem] at hk
          omega
        unfold serializeNode
        by_cases hv : name ∈ voidTags
        · rw [if_pos hv]
          refine ltOk_lt_cons _ ?_ ?_
          · intro c hc
            rcases List.mem_append.mp hc with h1 | h2
            · rcases List.mem_append.mp h1 with ha | hb
              · exact hname_nolt c ha
              · exact hattr_nolt c hb
            · rcases List.mem_cons.mp h2 with rfl | h3
              · decide
              rcases List.mem_cons.mp h3 with rfl | h4
              · decide
              · exact absurd h4 (List.not_mem_nil c)
          · exact ⟨name, hnamemem, attrsStr attrs ++ "/>".toList,
              Or.inl (by rw [List.append_assoc])⟩
        · rw [if_neg hv]
          refine ltOk_append _ _ ?_ (ltOk_append _ _ (ih cs hkc hcs) ?_)
          · refine ltOk_lt_cons _ ?_ ?_
            · intro c hc
              rcases List.mem_append.mp hc with h1 | h2
              · rcases List.mem_append.mp h1 with ha | hb
                · exact hname_nolt c ha
                · exact hattr_nolt c hb
              · rcases List.mem_cons.mp h2 with rfl | h3
                · decide
                · exact absurd h3 (List.not_mem_nil c)
            · exact ⟨name, hnamemem, attrsStr attrs ++ ['>'],
                Or.inl (by rw [List.append_assoc])⟩
          · refine ltOk_lt_cons _ ?_ ?_
            · intro c hc
              rcases List.mem_cons.mp hc with rfl | h2
              · decide
              rcases List.mem_append.mp h2 with ha | hb
              · exact hname_nolt c ha
              · rcases List.mem_cons.mp hb with rfl | h3
                · decide
                · exact absurd h3 (List.not_mem_nil c)
            · exact ⟨name, hnamemem, ['>'], Or.inr rfl⟩

theorem leadsWith_decomp : ∀ (pat l : List Char), leadsWith pat l = true → ∃ y, l = pat ++ y
  | [], l, _ => ⟨l, rfl⟩
  | _ :: _, [], h => absurd h (by rw [leadsWith]; exact Bool.false_ne_true)
  | p :: ps, x :: xs, h => by
    unfold leadsWith at h
    rw [Bool.and_eq_true] at h
    obtain ⟨h1, h2⟩ := h
    have hpx : p = x := eq_of_beq h1
    subst hpx
    obtain ⟨y, hy⟩ := leadsWith_decomp ps xs h2
    exact ⟨y, by rw [List.cons_append, hy]⟩

theorem findSubAux_decomp (pat : List Char) : ∀ (l : List Char) (i j : Nat),
    findSubAux pat l i = some j → ∃ x y, l = x ++ (pat ++ y) := by
  intro l
  induction l with
  | nil =>
    intro i j h
    rw [findSubAux] at h
    by_cases hl : leadsWith pat [] = true
    · obtain ⟨y, hy⟩ := leadsWith_decomp pat [] hl
      exact ⟨[], y, by rw [List.nil_append]; exact hy⟩
    · rw [if_neg hl] at h
      exact absurd h (by simp)
  | cons c rest ih =>
    intro i j h
    rw [findSubAux] at h
    by_cases hl : leadsWith pat (c :: rest) = true
    · obtain ⟨y, hy⟩ := leadsWith_decomp pat (c :: rest) hl
      exact ⟨[], y, by rw [List.nil_append]; exact hy⟩
    · rw [if_neg hl] at h
      obtain ⟨x, y, hxy⟩ := ih (i + 1) j h
      exact ⟨c :: x, y, by rw [List.cons_append, hxy]⟩

/-- The two lists agree on their common prefix. -/
def listLe : List Char → List Char → Bool
  | [], _ => true
  | _ :: _, [] => true
  | c :: cs, d :: ds => c == d && listLe cs ds

theorem compat_of_append_eq : ∀ (a b u v : List Char), a ++ u = b ++ v → listLe a b = true
  | [], _, _, _, _ => rfl
  | _ :: _, [], _, _, _ => rfl
  | c :: cs, d :: ds, u, v, h => by
    rw [List.cons_append, List.cons_append] at h
    injection h with h1 h2
    unfold listLe
    rw [Bool.and_eq_true]
    exact ⟨beq_iff_eq.mpr h1, compat_of_append_eq cs ds u v h2⟩

theorem tagOk_script_false (y : List Char) :
    TagOk ('s' :: 'c' :: 'r' :: 'i' :: 'p' :: 't' :: y) → False := by
  have hall : ∀ t ∈ allowedTags, listLe t ['s','c','r','i','p','t'] = false := by decide
  rintro ⟨t, hmem, u, h | h⟩
  · have hc : listLe t ['s','c','r','i','p','t'] = true :=
      compat_of_append_eq t ['s','c','r','i','p','t'] u y h.symm
    rw [hall t hmem] at hc
    exact Bool.false_ne_true hc
  · injection h with h1 _
    exact absurd h1 (by decide)

theorem tagOk_style_false (y : List Char) :
    TagOk ('s' :: 't' :: 'y' :: 'l' :: 'e' :: y) → False := by
  have hall : ∀ t ∈ allowedTags, listLe t ['s','t','y','l','e'] = false := by decide
  rintro ⟨t, hmem, u, h | h⟩
  · have hc : listLe t ['s','t','y','l','e'] = true :=
      compat_of_append_eq t ['s','t','y','l','e'] u y h.symm
    rw [hall t hmem] at hc
    exact Bool.false_ne_true hc
  · injection h with h1 _
    exact absurd h1 (by decide)

/-- C1: the serialized output of the fragment sanitizer satisfies the
allow-list invariant on the tree level (every element bears an allowed tag
with only attributes from that tag's allow-set), the output string never
contains a `<script` or `<style` substring (Python `find` returns -1 for
them), and a script or style element is dropped outright together with its
entire subtree. -/
theorem sanitize_fragment_safe :
    (∀ f : List HNode, allowedList (sanitizeTree f) = true) ∧
    (∀ f : List HNode, findSub "<script".toList (sanitizeFragment f) = none ∧
      findSub "<style".toList (sanitizeFragment f) = none) ∧
    (∀ (attrs : List (List Char × List Char)) (cs : List HNode),
      sanitizeFragment [.elem "script".toList attrs cs] = [] ∧
      sanitizeFragment [.elem "style".toList attrs cs] = []) := by
  have hlt : ∀ f : List HNode, LtOk (sanitizeFragment f) := fun f =>
    serializeList_ltOk_aux (sizeList (sanitizeTree f)) (sanitizeTree f)
      (Nat.le_refl _) (sanitizeTree_allowed f)
  refine ⟨sanitizeTree_allowed, ?_, ?_⟩
  · intro f
    constructor
    · cases hf : findSub "<script".toList (sanitizeFragment f) with
      | none => rfl
      | some j =>
        exfalso
        obtain ⟨x, y, hxy⟩ := findSubAux_decomp _ _ 0 j hf
        exact tagOk_script_false y (hlt f x ('s' :: 'c' :: 'r' :: 'i' :: 'p' :: 't' :: y) hxy)
    · cases hf : findSub "<style".toList (sanitizeFragment f) with
      | none => rfl
      | some j =>
        exfalso
        obtain ⟨x, y, hxy⟩ := findSubAux_decomp _ _ 0 j hf
        exact tagOk_style_false y (hlt f x ('s' :: 't' :: 'y' :: 'l' :: 'e' :: y) hxy)
  · intro attrs cs
    exact ⟨rfl, rfl⟩

end RR
